import Mathlib

/-!
Verification development for the `ai-hr-job-matcher` repository.

The Python sources under `src/` are shallowly embedded as executable Lean
definitions:

* `LlmUtils.cleanJson`    embeds `llm_utils.clean_json_response`
* `LlmUtils.safeJsonParse` embeds `llm_utils.safe_json_parse`
* `LlmUtils.callLLM` / `LlmUtils.runCalls` embed the retry loop and global
  rate gate of `llm_utils.call_llm` (time is modelled in whole units: a
  `time.sleep(d)` advances the clock by exactly `d`, everything else is
  instantaneous; `time.time()` reads the clock)
* `PdfUtils.*` and `App.handleUpload` embed `pdf_utils.py` and the file
  upload helper of `app.py`.

Python regular-expression substitutions (`re.sub`) are embedded as
character-list scans with the same leftmost, non-overlapping semantics,
specialised to the concrete patterns appearing in the source.  Whitespace
is the ASCII whitespace class (the inputs of interest are ASCII).
-/

namespace LlmUtils

/-- The backtick character (code 96), written via `Char.ofNat`. -/
def tick : Char := Char.ofNat 96

/-- Opening curly brace. -/
def lbrace : Char := Char.ofNat 123

/-- Closing curly brace. -/
def rbrace : Char := Char.ofNat 125

/-- Closing square bracket. -/
def rbracket : Char := ']'

/-- Single quote (apostrophe), code 39. -/
def squote : Char := Char.ofNat 39

/-- Double quote, code 34. -/
def dquote : Char := Char.ofNat 34

/-- Python's `\s` class / `str.strip` whitespace, restricted to ASCII:
space, tab, newline, carriage return, vertical tab, form feed. -/
def isSp (c : Char) : Bool :=
  c = ' ' || c = '\t' || c = '\n' || c = '\r' || c = Char.ofNat 11 || c = Char.ofNat 12

/-- Drop leading whitespace (the `\s*` part of the patterns). -/
def dropWs (l : List Char) : List Char := l.dropWhile isSp

/-- Python `str.strip()`: remove leading and trailing whitespace. -/
def stripL (l : List Char) : List Char :=
  ((l.dropWhile isSp).reverse.dropWhile isSp).reverse

/-- Does the list contain three consecutive backticks?  This is the
Python test `"```" in cleaned` in `clean_json_response`. -/
def hasTriple : List Char → Bool
  | a :: b :: c :: r => (a = tick && b = tick && c = tick) || hasTriple (b :: c :: r)
  | _ => false

/-- Does the list start with two backticks? -/
def twoTicks : List Char → Bool
  | a :: b :: _ => a = tick && b = tick
  | _ => false

/-- Consume an optional leading `n` (the `n?` of the pattern). -/
def consumeOptN (l : List Char) : List Char :=
  match l with
  | c :: r => if c = 'n' then r else c :: r
  | [] => []

/-- Match the pattern `` ```json?\s* `` at the head of the list
(three backticks, then `jso`, an optional `n`, then greedy whitespace).
Returns the remainder after the match. -/
def matchJsonFence : List Char → Option (List Char)
  | t1 :: t2 :: t3 :: cj :: cs :: co :: rest =>
    if t1 = tick && t2 = tick && t3 = tick && cj = 'j' && cs = 's' && co = 'o' then
      some (dropWs (consumeOptN rest))
    else none
  | _ => none

/-- Match the pattern `` ```\s* `` at the head of the list. -/
def matchBareFence : List Char → Option (List Char)
  | t1 :: t2 :: t3 :: rest =>
    if t1 = tick && t2 = tick && t3 = tick then some (dropWs rest) else none
  | _ => none

/-- Match the pattern `,\s*C` (for a closing character `C`) at the head of
the list.  Returns the remainder after the closing character. -/
def matchCommaClose (close : Char) : List Char → Option (List Char)
  | c :: rest =>
    if c = ',' then
      match rest.dropWhile isSp with
      | d :: r' => if d = close then some r' else none
      | [] => none
    else none
  | [] => none

/-- One generic `re.sub(pat, repl, s)` scan: at each position try `pat`;
on a match emit `repl` and continue after the match, otherwise emit the
current character and move one position right.  `fuel` bounds the number
of steps; every caller supplies `fuel = l.length`, which suffices because
each step consumes at least one character. -/
def subF (pat : List Char → Option (List Char)) (repl : List Char) :
    Nat → List Char → List Char
  | 0, l => l
  | _ + 1, [] => []
  | f + 1, c :: rest =>
    match pat (c :: rest) with
    | some r' => repl ++ subF pat repl f r'
    | none => c :: subF pat repl f rest

/-- Run a substitution with exactly enough fuel. -/
def subRun (pat : List Char → Option (List Char)) (repl : List Char) (l : List Char) :
    List Char := subF pat repl l.length l

/-- `re.sub(r'```json?\s*', '', s)`. -/
def subJsonFence (l : List Char) : List Char := subF matchJsonFence [] l.length l

/-- `re.sub(r'```\s*', '', s)`. -/
def subBareFence (l : List Char) : List Char := subF matchBareFence [] l.length l

/-- `re.sub(r',\s*}', '}', s)`. -/
def repairBrace (l : List Char) : List Char :=
  subF (matchCommaClose rbrace) [rbrace] l.length l

/-- `re.sub(r',\s*]', ']', s)`. -/
def repairBracket (l : List Char) : List Char :=
  subF (matchCommaClose rbracket) [rbracket] l.length l

/-- Python `s.find(c)`: index of the first occurrence, if any. -/
def findIdx (target : Char) : List Char → Option Nat
  | [] => none
  | c :: r => if c = target then some 0 else (findIdx target r).map Nat.succ

/-- Python `s.rfind(c)`: index of the last occurrence, if any. -/
def rfindIdx (target : Char) (l : List Char) : Option Nat :=
  (findIdx target l.reverse).map (fun i => l.length - 1 - i)

/-- The literal `"{}"` returned on the fallback paths of
`clean_json_response`. -/
def bracePair : List Char := [lbrace, rbrace]

/-- Embedding of `clean_json_response` (llm_utils.py, lines 242-265):
strip, remove markdown code fences when `` ``` `` occurs, slice from the
first `{` to the last `}` (requiring `end > start`), then repair trailing
commas before `}` and before `]`; otherwise return `"{}"`. -/
def cleanJsonL (response : List Char) : List Char :=
  if response = [] then bracePair
  else
    let cleaned := stripL response
    let cleaned := if hasTriple cleaned then subBareFence (subJsonFence cleaned) else cleaned
    match findIdx lbrace cleaned, rfindIdx rbrace cleaned with
    | some s, some e =>
      if s < e + 1 then
        repairBracket (repairBrace ((cleaned.take (e + 1)).drop s))
      else bracePair
    | _, _ => bracePair

/-- `clean_json_response` on strings. -/
def cleanJson (s : String) : String := String.mk (cleanJsonL s.data)

/-! ### Model of `json.loads`

A strict JSON value parser (recursive descent with fuel).  Numbers are kept
as lexemes — no claim depends on numeric values.  The non-standard
`NaN`/`Infinity` extensions of CPython's parser are not modelled; no claim
depends on them. -/

/-- A decoded JSON value. -/
inductive JValue where
  | jnull
  | jbool (b : Bool)
  | jnum (lexeme : String)
  | jstr (s : String)
  | jarr (elems : List JValue)
  | jobj (members : List (String × JValue))

def isDigit (c : Char) : Bool := '0' ≤ c && c ≤ '9'

def isHexDigit (c : Char) : Bool :=
  isDigit c || ('a' ≤ c && c ≤ 'f') || ('A' ≤ c && c ≤ 'F')

def hexVal (c : Char) : Nat :=
  if isDigit c then c.toNat - '0'.toNat
  else if 'a' ≤ c && c ≤ 'f' then c.toNat - 'a'.toNat + 10
  else c.toNat - 'A'.toNat + 10

/-- Parse the body of a JSON string after the opening quote; returns the
decoded characters and the remainder after the closing quote. -/
def parseStringBody : Nat → List Char → Option (List Char × List Char)
  | 0, _ => none
  | _ + 1, [] => none
  | f + 1, c :: r =>
    if c = dquote then some ([], r)
    else if c = '\\' then
      match r with
      | e :: r2 =>
        let dec : Option (Char × List Char) :=
          if e = dquote then some (dquote, r2)
          else if e = '\\' then some ('\\', r2)
          else if e = '/' then some ('/', r2)
          else if e = 'b' then some (Char.ofNat 8, r2)
          else if e = 'f' then some (Char.ofNat 12, r2)
          else if e = 'n' then some ('\n', r2)
          else if e = 'r' then some ('\r', r2)
          else if e = 't' then some ('\t', r2)
          else if e = 'u' then
            match r2 with
            | h1 :: h2 :: h3 :: h4 :: r3 =>
              if isHexDigit h1 && isHexDigit h2 && isHexDigit h3 && isHexDigit h4 then
                some (Char.ofNat
                  (((hexVal h1 * 16 + hexVal h2) * 16 + hexVal h3) * 16 + hexVal h4), r3)
              else none
            | _ => none
          else none
        match dec with
        | some (ch, r') => (parseStringBody f r').map (fun p => (ch :: p.1, p.2))
        | none => none
      | [] => none
    else if c.toNat < 32 then none
    else (parseStringBody f r).map (fun p => (c :: p.1, p.2))

/-- Parse a JSON number lexeme: `-?(0|[1-9][0-9]*)(.[0-9]+)?([eE][+-]?[0-9]+)?`. -/
def parseNumber (l : List Char) : Option (List Char × List Char) :=
  let (neg, l1) := match l with
    | '-' :: r => (['-'], r)
    | r => (([] : List Char), r)
  match l1 with
  | [] => none
  | c :: r =>
    if ¬ isDigit c then none
    else
      let (ip, l2) :=
        if c = '0' then ([c], r)
        else (c :: r.takeWhile isDigit, r.dropWhile isDigit)
      let (fp, l3) :=
        match l2 with
        | '.' :: d :: r2 =>
          if isDigit d then ('.' :: d :: r2.takeWhile isDigit, r2.dropWhile isDigit)
          else (([] : List Char), l2)
        | _ => (([] : List Char), l2)
      if fp.isEmpty && (match l2 with | '.' :: _ => true | _ => false) then none
      else
        let (ep, l4) :=
          match l3 with
          | e :: r2 =>
            if e = 'e' ∨ e = 'E' then
              match r2 with
              | s :: d :: r3 =>
                if (s = '+' ∨ s = '-') ∧ isDigit d then
                  (e :: s :: d :: r3.takeWhile isDigit, r3.dropWhile isDigit)
                else if isDigit s then
                  (e :: s :: (d :: r3).takeWhile isDigit, (d :: r3).dropWhile isDigit)
                else ([], l3)
              | [s] => if isDigit s then ([e, s], ([] : List Char)) else ([], l3)
              | [] => ([], l3)
            else ([], l3)
          | [] => ([], l3)
        if ep.isEmpty && (match l3 with | e :: _ => e = 'e' || e = 'E' | _ => false) then none
        else some (neg ++ ip ++ fp ++ ep, l4)

mutual

/-- Parse one JSON value (leading whitespace allowed); returns the value
and the unconsumed remainder. -/
def parseVal : Nat → List Char → Option (JValue × List Char)
  | 0, _ => none
  | f + 1, l =>
    match dropWs l with
    | [] => none
    | c :: r =>
      if c = lbrace then
        match dropWs r with
        | d :: r2 =>
          if d = rbrace then some (.jobj [], r2)
          else (parseMembers f (d :: r2)).map (fun p => (JValue.jobj p.1, p.2))
        | [] => none
      else if c = '[' then
        match dropWs r with
        | d :: r2 =>
          if d = rbracket then some (.jarr [], r2)
          else (parseItems f (d :: r2)).map (fun p => (JValue.jarr p.1, p.2))
        | [] => none
      else if c = dquote then
        (parseStringBody (r.length + 1) r).map (fun p => (JValue.jstr (String.mk p.1), p.2))
      else
        match c :: r with
        | 't' :: 'r' :: 'u' :: 'e' :: rest => some (.jbool true, rest)
        | 'f' :: 'a' :: 'l' :: 's' :: 'e' :: rest => some (.jbool false, rest)
        | 'n' :: 'u' :: 'l' :: 'l' :: rest => some (.jnull, rest)
        | l' =>
          if c = '-' ∨ isDigit c then
            (parseNumber l').map (fun p => (JValue.jnum (String.mk p.1), p.2))
          else none

/-- Parse the members of an object, positioned at a key (not at `}`). -/
def parseMembers : Nat → List Char → Option (List (String × JValue) × List Char)
  | 0, _ => none
  | f + 1, l =>
    match l with
    | c :: r =>
      if c = dquote then
        match parseStringBody (r.length + 1) r with
        | some (key, r1) =>
          match dropWs r1 with
          | ':' :: r3 =>
            match parseVal f r3 with
            | some (v, r4) =>
              (match dropWs r4 with
              | ',' :: r6 =>
                (parseMembers f (dropWs r6)).map
                  (fun p => ((String.mk key, v) :: p.1, p.2))
              | d :: r7 =>
                if d = rbrace then some ([(String.mk key, v)], r7) else none
              | [] => none)
            | none => none
          | _ => none
        | none => none
      else none
    | [] => none

/-- Parse the items of an array, positioned at a value (not at `]`). -/
def parseItems : Nat → List Char → Option (List JValue × List Char)
  | 0, _ => none
  | f + 1, l =>
    match parseVal f l with
    | some (v, r1) =>
      (match dropWs r1 with
      | ',' :: r2 => (parseItems f (dropWs r2)).map (fun p => (v :: p.1, p.2))
      | d :: r3 => if d = rbracket then some ([v], r3) else none
      | [] => none)
    | none => none

end

/-- Embedding of `json.loads`: parse one value, then require only
whitespace to remain.  Returns a crude reason string on failure (CPython's
exact `JSONDecodeError` message text is not modelled; no claim depends on
its wording). -/
def jsonParseE (s : String) : Except String JValue :=
  match parseVal (s.data.length + 1) s.data with
  | some (v, rest) => if dropWs rest = [] then .ok v else .error "Extra data"
  | none => .error "Expecting value"

/-- `json.loads` as an `Option`. -/
def jsonParse (s : String) : Option JValue := (jsonParseE s).toOption

/-- `cleaned.replace("'", '"')`. -/
def replaceQuotes (s : String) : String :=
  String.mk (s.data.map (fun c => if c = squote then dquote else c))

/-- The synthetic mapping `{"error": ..., "raw": response[:500]}` built when
parsing fails and no (truthy) default is available. -/
def synthErrorMap (resp : String) (msg : String) : JValue :=
  .jobj [("error", .jstr ("JSON parse failed: " ++ msg)),
         ("raw", .jstr (String.mk (resp.data.take 500)))]

/-- Embedding of `safe_json_parse` (llm_utils.py, lines 268-278).  The
default is an optional Python dict (`None` when absent); `default or {...}`
falls through to the synthetic mapping when the default is `None` *or* an
empty (falsy) dict. -/
def safeJsonParse (resp : String) (default : Option (List (String × JValue))) : JValue :=
  let cleaned := cleanJson resp
  match jsonParseE cleaned with
  | .ok v => v
  | .error e =>
    match jsonParseE (replaceQuotes cleaned) with
    | .ok v => v
    | .error _ =>
      match default with
      | some d => if d.isEmpty then synthErrorMap resp e else .jobj d
      | none => synthErrorMap resp e

/-- Does a decoded object carry the given key? (top level only). -/
def hasKey (v : JValue) (k : String) : Bool :=
  match v with
  | .jobj ms => ms.any (fun m => m.1 = k)
  | _ => false

/-! ### Model of `call_llm` (llm_utils.py, lines 114-239)

Timing model: the clock is an integer; `time.time()` reads it,
`time.sleep(d)` advances it by exactly `d` (and raises `ValueError` when
`d < 0`, which no handler in `call_llm` catches); all other work is
instantaneous.  The endpoint is modelled as a function from the attempt
number to the observed behaviour of that attempt. -/

/-- `MIN_REQUEST_INTERVAL` (llm_utils.py, line 39). -/
def minRequestInterval : Int := 3

/-- `max_retries` (llm_utils.py, line 165). -/
def maxRetries : Nat := 4

/-- `retry_delays` (llm_utils.py, line 166). -/
def retryDelays : List Int := [5, 15, 30, 60]

/-- `retry_delays[attempt] if attempt < len(retry_delays) else 60`
(llm_utils.py, line 186). -/
def scheduleDelay (attempt : Nat) : Int := retryDelays.getD attempt 60

/-- What one HTTP attempt observes from the endpoint. -/
inductive Attempt where
  /-- `response.status_code == 401`. -/
  | http401
  /-- `response.status_code == 429`; `retryAfter` is `int(retry-after)`
  when the header is present and parses as an integer, `none` when the
  header is absent or unparseable (the bare `except: pass`). -/
  | http429 (retryAfter : Option Int)
  /-- A 2xx response whose JSON body has a string at
  `choices[0].message.content` (`some`), or lacks the field path (`none`,
  the `KeyError`/`IndexError` handler). -/
  | httpOkBody (content : Option String)
  /-- `requests.exceptions.Timeout`. -/
  | timeout
  /-- Any other `requests.exceptions.RequestException` (transport error,
  or `raise_for_status` on a non-2xx/401/429 status); `msgHas429` models
  `"429" in str(e) or "Too Many Requests" in str(e)`. -/
  | transportError (msgHas429 : Bool)

/-- The tagged outcome `call_llm` returns: `Success{raw_text}` for the
content string, otherwise `json.dumps({"error": detail})` for the given
detail text. -/
inductive LLMOutcome where
  | success (rawText : String)
  | errAuth (detail : String)
  | errTimeout (detail : String)
  | errRateLimited (detail : String)
  | errRequestFailed (detail : String)
  | errInvalidResponse (detail : String)
  | errRateLimitExhausted (detail : String)

/-- The only exception `call_llm` itself can raise in this model:
`time.sleep` of a negative duration (`ValueError`), which no `except`
clause in the function matches. -/
inductive PyException where
  | sleepValueError

/-- Does `needle` occur as a contiguous substring of `hay`? -/
def containsSub (needle : List Char) : List Char → Bool
  | [] => needle.isEmpty
  | c :: rest => needle.isPrefixOf (c :: rest) || containsSub needle rest

/-- Detail text of the 401 return (llm_utils.py, lines 175-182). -/
def authDetail : String :=
  "❌ Invalid API Key (401 Unauthorized)\n\nPlease check your GROQ_API_KEY:\n1. Go to https://console.groq.com/keys\n2. Create a new API key\n3. Update .streamlit/secrets.toml with:\n   GROQ_API_KEY = \"gsk_your_new_key_here\""

/-- Detail text of the timeout return (llm_utils.py, line 218). -/
def timeoutDetail : String :=
  "Request timed out. The 70b model may be slow. Please try again."

/-- Detail text of the transport-429 exhaustion return (line 233). -/
def rateLimitedDetail : String :=
  "Rate limit exceeded. Please wait 2 minutes and try again."

/-- Detail text of the post-loop exhaustion return (line 239). -/
def exhaustedDetail : String :=
  "Rate limit exceeded after retries. Please wait 2 minutes and try again."

/-- The result of one `call_llm` invocation: the returned outcome (or the
escaped exception), the timestamps written to `LAST_REQUEST_TIME` in
order, the final clock, and the final `LAST_REQUEST_TIME`. -/
structure CallResult where
  result : Except PyException LLMOutcome
  sends : List Int
  finalNow : Int
  finalLast : Int

/-- `time.sleep(d)`: advances the clock, or raises for negative `d`. -/
def sleepStep (now : Int) (d : Int) : Option Int :=
  if d < 0 then none else some (now + d)

/-- The wait chosen on a 429 status (llm_utils.py, lines 186-194):
the schedule delay, overridden by `min(int(retry_after) + 2, 90)` when the
header parses. -/
def waitFor429 (attempt : Nat) (retryAfter : Option Int) : Int :=
  match retryAfter with
  | some r => min (r + 2) 90
  | none => scheduleDelay attempt

/-- The retry loop `for attempt in range(max_retries)` (lines 168-239).
`fuel` is the number of remaining loop iterations (`maxRetries - attempt`);
each iteration first writes `LAST_REQUEST_TIME = time.time()` (line 170),
then sends and classifies.  Running out of fuel is the post-loop return
(line 239). -/
def runAttempts (beh : Nat → Attempt) : Nat → Nat → Int → Int → List Int → CallResult
  | 0, _, now, lastReq, sends =>
    ⟨.ok (.errRateLimitExhausted exhaustedDetail), sends, now, lastReq⟩
  | fuel + 1, attempt, now, _, sends =>
    let lastReq := now
    let sends := sends ++ [now]
    match beh attempt with
    | .http401 => ⟨.ok (.errAuth authDetail), sends, now, lastReq⟩
    | .http429 retryAfter =>
      match sleepStep now (waitFor429 attempt retryAfter) with
      | none => ⟨.error .sleepValueError, sends, now, lastReq⟩
      | some now' => runAttempts beh fuel (attempt + 1) now' lastReq sends
    | .timeout =>
      if attempt < maxRetries - 1 then
        runAttempts beh fuel (attempt + 1) (now + 10) lastReq sends
      else ⟨.ok (.errTimeout timeoutDetail), sends, now, lastReq⟩
    | .transportError msgHas429 =>
      if msgHas429 then
        if attempt < maxRetries - 1 then
          runAttempts beh fuel (attempt + 1) (now + scheduleDelay attempt) lastReq sends
        else ⟨.ok (.errRateLimited rateLimitedDetail), sends, now, lastReq⟩
      else ⟨.ok (.errRequestFailed "API request failed"), sends, now, lastReq⟩
    | .httpOkBody content =>
      match content with
      | some c => ⟨.ok (.success c.trim), sends, now, lastReq⟩
      | none => ⟨.ok (.errInvalidResponse "Invalid API response"), sends, now, lastReq⟩

/-- The module-level rate-gate state: `LAST_REQUEST_TIME` and the clock. -/
structure GateState where
  lastReq : Int
  now : Int

/-- The rate-limit protection at the top of `call_llm` (lines 133-141):
wait until at least `MIN_REQUEST_INTERVAL` has elapsed since
`LAST_REQUEST_TIME`; returns the clock after the (possible) wait. -/
def gateWait (st : GateState) : Int :=
  let elapsed := st.now - st.lastReq
  if elapsed < minRequestInterval then st.now + (minRequestInterval - elapsed)
  else st.now

/-- One `call_llm` invocation against endpoint behaviour `beh`, starting
from gate state `st` (API key present; the early-return for a missing key
performs no send and is irrelevant to the timing claims). -/
def callLLM (st : GateState) (beh : Nat → Attempt) : CallResult :=
  runAttempts beh maxRetries 0 (gateWait st) st.lastReq []

/-- A sequence of `call_llm` invocations: each is preceded by an idle
period, and updates the shared `LAST_REQUEST_TIME`/clock.  Returns every
timestamp written to `LAST_REQUEST_TIME`, in order. -/
def runCalls (st : GateState) : List (Int × (Nat → Attempt)) → List Int × GateState
  | [] => ([], st)
  | (idle, beh) :: rest =>
    let r := callLLM ⟨st.lastReq, st.now + idle⟩ beh
    let (ts, st') := runCalls ⟨r.finalLast, r.finalNow⟩ rest
    (r.sends ++ ts, st')

/-- Two consecutive send timestamps are spaced by at least
`MIN_REQUEST_INTERVAL`. -/
def spaced (a b : Int) : Prop := a + minRequestInterval ≤ b

instance (a b : Int) : Decidable (spaced a b) :=
  inferInstanceAs (Decidable (a + minRequestInterval ≤ b))

/-- Every adjacent pair of timestamps in the list is `spaced`. -/
def spacedChain : List Int → Bool
  | a :: b :: r => decide (spaced a b) && spacedChain (b :: r)
  | _ => true

/-- An attempt behaviour from the expected failure/success modes whose
`retry-after` header (when present and integer) is at least the given
bound. -/
def retryAfterAtLeast (bound : Int) : Attempt → Prop
  | .http429 (some r) => bound ≤ r
  | _ => True

/-- Every `retry-after` the endpoint ever supplies is at least `bound`. -/
def allRetryAfterAtLeast (bound : Int) (beh : Nat → Attempt) : Prop :=
  ∀ i, retryAfterAtLeast bound (beh i)

end LlmUtils

namespace PdfUtils

open LlmUtils (isSp stripL dropWs subF findIdx)

/-- Match `\n\s*\n` with Python's greedy-with-backtracking semantics: a
newline, then the longest whitespace run that still ends just before a
newline.  Returns the remainder after the second newline. -/
def matchDoubleNl : List Char → Option (List Char)
  | c :: rest =>
    if c = '\n' then
      let w := rest.takeWhile isSp
      match findIdx '\n' w.reverse with
      | some i => some (rest.drop (w.length - 1 - i + 1))
      | none => none
    else none
  | [] => none

/-- Match ` +` (one or more spaces, greedy). -/
def matchSpaces : List Char → Option (List Char)
  | c :: rest => if c = ' ' then some (rest.dropWhile (· = ' ')) else none
  | [] => none

/-- Embedding of `clean_text` (pdf_utils.py, lines 127-141): collapse
blank lines, collapse space runs, drop NULs, turn form feeds into
newlines, strip. -/
def cleanText (s : String) : String :=
  if s.data = [] then ""
  else
    let l := subF matchDoubleNl ['\n', '\n'] s.data.length s.data
    let l := subF matchSpaces [' '] l.length l
    let l := (l.filter (fun c => c ≠ Char.ofNat 0)).map
      (fun c => if c = Char.ofNat 12 then '\n' else c)
    String.mk (stripL l)

/-- One PDF library's behaviour: missing, raising after having appended
`gathered` to the accumulator, or yielding the per-page texts
(`""` standing for a page whose `extract_text()` was falsy). -/
inductive PdfLibRun where
  | notInstalled
  | raises (gathered : String) (msg : String)
  | pages (texts : List String)

/-- `for page in pdf.pages: if page_text: text += page_text + "\n"` —
what the library block adds to `text`. -/
def libContribution : PdfLibRun → String
  | .notInstalled => ""
  | .raises g _ => g
  | .pages ps => String.join (ps.map fun t => if t = "" then "" else t ++ "\n")

/-- Did the library block run to completion (so that the
`if text.strip(): return clean_text(text)` inside its `try` is reached)? -/
def libCompleted : PdfLibRun → Bool
  | .pages _ => true
  | _ => false

/-- `fitz` appends `page.get_text() + "\n"` unconditionally. -/
inductive FitzRun where
  | notInstalled
  | raises (gathered : String) (msg : String)
  | pages (texts : List String)

def fitzContribution : FitzRun → String
  | .notInstalled => ""
  | .raises g _ => g
  | .pages ps => String.join (ps.map fun t => t ++ "\n")

def fitzCompleted : FitzRun → Bool
  | .pages _ => true
  | _ => false

/-- Environment for one `extract_text_from_pdf` call. -/
structure PdfEnv where
  /-- `some e` when `file.read()` raised with message `e`. -/
  readErr : Option String
  plumber : PdfLibRun
  pypdf2 : PdfLibRun
  fitz : FitzRun

/-- The final-fallback diagnostic of `extract_text_from_pdf` (line 71). -/
def couldNotPdfMsg : String :=
  "Could not extract text from PDF. Please install: pip install pdfplumber PyPDF2 pymupdf"

/-- Embedding of `extract_text_from_pdf` (pdf_utils.py, lines 10-71).
`text` accumulates across the three library fallbacks; each completed
library block returns `clean_text(text)` when the accumulated text has
non-whitespace content; the final `return text or "Could not ..."` keeps a
whitespace-only accumulation as-is. -/
def extractPdf (env : PdfEnv) : String :=
  match env.readErr with
  | some e => "Error reading file: " ++ e
  | none =>
    let t1 := libContribution env.plumber
    if libCompleted env.plumber && !(stripL t1.data).isEmpty then cleanText t1
    else
      let t2 := t1 ++ libContribution env.pypdf2
      if libCompleted env.pypdf2 && !(stripL t2.data).isEmpty then cleanText t2
      else
        let t3 := t2 ++ fitzContribution env.fitz
        if fitzCompleted env.fitz && !(stripL t3.data).isEmpty then cleanText t3
        else if t3 ≠ "" then t3
        else couldNotPdfMsg

/-- One `extract_text_from_docx` call: `python-docx` missing, an exception
with message `msg`, or a parsed document (paragraph texts and tables as
rows of cell texts). -/
inductive DocxRun where
  | notInstalled
  | raises (msg : String)
  | ok (paragraphs : List String) (tables : List (List (List String)))

/-- The diagnostic returned when `python-docx` is missing (line 103) —
note it starts with neither `"Error"` nor `"Could not"`. -/
def pleaseInstallDocxMsg : String := "Please install python-docx: pip install python-docx"

/-- Embedding of `extract_text_from_docx` (pdf_utils.py, lines 74-105). -/
def extractDocx : DocxRun → String
  | .notInstalled => pleaseInstallDocxMsg
  | .raises m => "Error extracting DOCX: " ++ m
  | .ok ps tbls =>
    cleanText (String.join (ps.map fun p => p ++ "\n") ++
      String.join (tbls.map fun tb =>
        String.join (tb.map fun row => String.intercalate " | " row ++ "\n")))

/-- One `extract_text_from_txt` call: `file.read()` raised, or returned
bytes (`utf8 : some s` when UTF-8 decoding succeeds, with `latin` the
latin-1 decoding used otherwise), or returned an `str` directly. -/
inductive TxtRun where
  | raises (msg : String)
  | bytesData (utf8 : Option String) (latin : String)
  | strData (s : String)

/-- Embedding of `extract_text_from_txt` (pdf_utils.py, lines 108-124). -/
def extractTxt : TxtRun → String
  | .raises m => "Error reading TXT file: " ++ m
  | .bytesData (some s) _ => s
  | .bytesData none latin => latin
  | .strData s => s

/-- The diagnostic for an unsupported extension (line 159) — it, too,
starts with neither `"Error"` nor `"Could not"`. -/
def unsupportedMsg : String := "Unsupported format. Please upload PDF, DOCX, or TXT."

/-- `str.lower()` on ASCII. -/
def lowerStr (s : String) : String :=
  String.mk (s.data.map fun c =>
    if 'A' ≤ c && c ≤ 'Z' then Char.ofNat (c.toNat + 32) else c)

/-- `s.startswith(p)`. -/
def startsWithStr (s p : String) : Bool := p.data.isPrefixOf s.data

/-- `s.endswith(p)`. -/
def endsWithStr (s p : String) : Bool := p.data.reverse.isPrefixOf s.data.reverse

/-- Environment for one `extract_text_from_file` call. -/
structure UploadEnv where
  pdf : PdfEnv
  docx : DocxRun
  txt : TxtRun

/-- Embedding of `extract_text_from_file` (pdf_utils.py, lines 144-161);
`isNone` models `file is None`.  (The helpers catch their own exceptions,
so the outer `except` is not reachable in this model.) -/
def extractTextFromFile (isNone : Bool) (env : UploadEnv) (filename : String) : String :=
  if isNone then ""
  else
    let fl := lowerStr filename
    if endsWithStr fl ".pdf" then extractPdf env.pdf
    else if endsWithStr fl ".docx" then extractDocx env.docx
    else if endsWithStr fl ".txt" then extractTxt env.txt
    else unsupportedMsg

/-- The values `extract_text_from_file` can return along a *successful*
extraction path in environment `env` (as opposed to its diagnostic
strings).  The last PDF entry is the raw accumulated page text kept by the
final `return text or ...` when it is whitespace-only. -/
def extractionTexts (env : UploadEnv) : List String :=
  (match env.pdf.readErr with
   | some _ => []
   | none =>
     let t1 := libContribution env.pdf.plumber
     let t2 := t1 ++ libContribution env.pdf.pypdf2
     let t3 := t2 ++ fitzContribution env.pdf.fitz
     [cleanText t1, cleanText t2, cleanText t3, t3]) ++
  (match env.docx with
   | .ok ps tbls => [extractDocx (.ok ps tbls)]
   | _ => []) ++
  (match env.txt with
   | .raises _ => []
   | t => [extractTxt t])

end PdfUtils

namespace App

/-- The caller's usability test (app.py, line 169):
`text and not text.startswith("Error") and not text.startswith("Could not")`. -/
def usableText (t : String) : Bool :=
  !t.data.isEmpty && !(PdfUtils.startsWithStr t "Error") &&
    !(PdfUtils.startsWithStr t "Could not")

/-- Embedding of the upload branch of `handle_file_upload` (app.py, lines
164-175): extract, keep the text when usable, otherwise fall back to the
caller-supplied default text. -/
def handleUpload (isNone : Bool) (env : PdfUtils.UploadEnv) (filename defaultText : String) :
    String :=
  if isNone then defaultText
  else
    let t := PdfUtils.extractTextFromFile false env filename
    if usableText t then t else defaultText

end App

/-! ## Helper lemmas -/

namespace LlmUtils

theorem scheduleDelay_nonneg (i : Nat) : 0 ≤ scheduleDelay i := by
  match i with
  | 0 => decide
  | 1 => decide
  | 2 => decide
  | 3 => decide
  | n + 4 => exact (show (0:Int) ≤ 60 by decide)

theorem scheduleDelay_ge_three (i : Nat) : 3 ≤ scheduleDelay i := by
  match i with
  | 0 => decide
  | 1 => decide
  | 2 => decide
  | 3 => decide
  | n + 4 => exact (show (3:Int) ≤ 60 by decide)

theorem retryAfterAtLeast_429 {b : Int} {ra : Option Int}
    (h : retryAfterAtLeast b (.http429 ra)) : ∀ r, ra = some r → b ≤ r := by
  intro r hr
  subst hr
  exact h

theorem waitFor429_nonneg (attempt : Nat) (ra : Option Int)
    (h : ∀ r, ra = some r → -2 ≤ r) : 0 ≤ waitFor429 attempt ra := by
  cases ra with
  | none => exact scheduleDelay_nonneg attempt
  | some r =>
    have := h r rfl
    simp only [waitFor429]
    exact le_min (by omega) (by omega)

theorem waitFor429_ge_three (attempt : Nat) (ra : Option Int)
    (h : ∀ r, ra = some r → 1 ≤ r) : 3 ≤ waitFor429 attempt ra := by
  cases ra with
  | none => exact scheduleDelay_ge_three attempt
  | some r =>
    have := h r rfl
    simp only [waitFor429]
    exact le_min (by omega) (by omega)

theorem sleepStep_of_nonneg {d : Int} (now : Int) (h : 0 ≤ d) :
    sleepStep now d = some (now + d) := by
  simp [sleepStep, not_lt.mpr h]

/-- Under well-formed retry-after headers, every path of the retry loop
returns a tagged outcome (no exception) within the fuel budget. -/
theorem runAttempts_ok (beh : Nat → Attempt) (h : allRetryAfterAtLeast (-2) beh) :
    ∀ fuel attempt now lastv sends,
      ∃ out, (runAttempts beh fuel attempt now lastv sends).result = .ok out ∧
        (runAttempts beh fuel attempt now lastv sends).sends.length ≤
          sends.length + fuel := by
  intro fuel
  induction fuel with
  | zero =>
    intro attempt now lastv sends
    exact ⟨_, rfl, by simp [runAttempts]⟩
  | succ f ih =>
    intro attempt now lastv sends
    have hlen : (sends ++ [now]).length = sends.length + 1 := by
      simp
    simp only [runAttempts]
    cases hba : beh attempt with
    | http401 =>
      refine ⟨_, rfl, ?_⟩
      dsimp only
      omega
    | http429 ra =>
      have hw : 0 ≤ waitFor429 attempt ra :=
        waitFor429_nonneg _ _ (retryAfterAtLeast_429 (hba ▸ h attempt))
      dsimp only
      rw [sleepStep_of_nonneg now hw]
      dsimp only
      obtain ⟨out, h1, h2⟩ := ih (attempt + 1) (now + waitFor429 attempt ra) now (sends ++ [now])
      exact ⟨out, h1, by omega⟩
    | timeout =>
      dsimp only
      by_cases hlt : attempt < maxRetries - 1
      · rw [if_pos hlt]
        obtain ⟨out, h1, h2⟩ := ih (attempt + 1) (now + 10) now (sends ++ [now])
        exact ⟨out, h1, by omega⟩
      · rw [if_neg hlt]
        refine ⟨_, rfl, ?_⟩
        dsimp only
        omega
    | transportError has429 =>
      dsimp only
      cases has429 with
      | true =>
        rw [if_pos rfl]
        by_cases hlt : attempt < maxRetries - 1
        · rw [if_pos hlt]
          obtain ⟨out, h1, h2⟩ := ih (attempt + 1) (now + scheduleDelay attempt) now (sends ++ [now])
          exact ⟨out, h1, by omega⟩
        · rw [if_neg hlt]
          refine ⟨_, rfl, ?_⟩
          dsimp only
          omega
      | false =>
        rw [if_neg (by simp)]
        refine ⟨_, rfl, ?_⟩
        dsimp only
        omega
    | httpOkBody content =>
      dsimp only
      cases content with
      | none =>
        refine ⟨_, rfl, ?_⟩
        dsimp only
        omega
      | some c =>
        refine ⟨_, rfl, ?_⟩
        dsimp only
        omega

end LlmUtils

namespace LlmUtils

/-- Under all-429 behaviour with well-formed retry-after headers, the loop
burns its whole budget (one send per iteration) and ends on the post-loop
exhaustion return. -/
theorem runAttempts_all429 (beh : Nat → Attempt)
    (h : ∀ i, ∃ ra, beh i = .http429 ra ∧ ∀ r, ra = some r → 0 ≤ r) :
    ∀ fuel attempt now lastv sends,
      (runAttempts beh fuel attempt now lastv sends).result
        = .ok (.errRateLimitExhausted exhaustedDetail) ∧
      (runAttempts beh fuel attempt now lastv sends).sends.length
        = sends.length + fuel := by
  intro fuel
  induction fuel with
  | zero =>
    intro attempt now lastv sends
    exact ⟨rfl, by simp [runAttempts]⟩
  | succ f ih =>
    intro attempt now lastv sends
    obtain ⟨ra, hra, hnn⟩ := h attempt
    have hw : 0 ≤ waitFor429 attempt ra :=
      waitFor429_nonneg _ _ (fun r hr => le_trans (by norm_num) (hnn r hr))
    simp only [runAttempts]
    rw [hra]
    dsimp only
    rw [sleepStep_of_nonneg now hw]
    dsimp only
    obtain ⟨h1, h2⟩ := ih (attempt + 1) (now + waitFor429 attempt ra) now (sends ++ [now])
    refine ⟨h1, ?_⟩
    rw [h2]
    simp only [List.length_append, List.length_cons, List.length_nil]
    omega

end LlmUtils

/-! ## Claim theorems -/

open LlmUtils in
/-- Claim C2 (counterexample): for the input `"not json at all"` with no
default, `safe_json_parse` does *not* return a mapping with `error` and
`raw` keys — the brace-less input cleans to `"{}"`, which parses. -/
theorem c2_counterexample :
    ¬ (hasKey (safeJsonParse "not json at all" none) "error" = true ∧
       hasKey (safeJsonParse "not json at all" none) "raw" = true) := by
  decide

open LlmUtils in
/-- Claim C2 (amended): `safe_json_parse("not json at all", default=None)`
returns the *empty* mapping `{}`: `clean_json_response` finds no brace and
yields the literal `"{}"`, which the strict parse accepts, so the
`error`/`raw` fallback is never reached. -/
theorem c2_amended :
    safeJsonParse "not json at all" none = .jobj [] ∧
    hasKey (safeJsonParse "not json at all" none) "error" = false ∧
    hasKey (safeJsonParse "not json at all" none) "raw" = false :=
  ⟨rfl, by decide, by decide⟩

open LlmUtils in
/-- Claim C3 (counterexample): an HTTP 429 whose `retry-after` header
parses to `-3` makes `call_llm` execute `time.sleep(min(-3 + 2, 90)) =
time.sleep(-1)`, which raises `ValueError` — an exception escapes on an
expected (rate-limit) failure mode. -/
theorem c3_counterexample :
    (callLLM ⟨0, 100⟩ (fun _ => .http429 (some (-3)))).result
      = .error .sleepValueError := rfl

open LlmUtils in
/-- Claim C3 (amended): for every endpoint behaviour drawn from the
expected failure modes whose integer `retry-after` values are all at least
`-2` (in particular, all HTTP-valid non-negative values), `call_llm`
terminates within the fixed attempt budget and returns a tagged outcome
instead of raising. -/
theorem c3_amended (st : GateState) (beh : Nat → Attempt)
    (h : allRetryAfterAtLeast (-2) beh) :
    ∃ out, (callLLM st beh).result = .ok out ∧
      (callLLM st beh).sends.length ≤ maxRetries := by
  obtain ⟨out, h1, h2⟩ := runAttempts_ok beh h maxRetries 0 (gateWait st) st.lastReq []
  exact ⟨out, h1, by simpa using h2⟩

open LlmUtils in
/-- Claim C3 (witness): the amended theorem applied to an endpoint that
always times out. -/
theorem c3_witness :
    ∃ out, (callLLM ⟨0, 100⟩ (fun _ => .timeout)).result = .ok out ∧
      (callLLM ⟨0, 100⟩ (fun _ => .timeout)).sends.length ≤ maxRetries :=
  c3_amended ⟨0, 100⟩ (fun _ => .timeout) (fun _ => trivial)

open LlmUtils in
/-- Claim C4: when the first attempt sees HTTP 401, `call_llm` returns the
auth failure immediately: exactly one send is recorded, the clock never
advances past the gate (no backoff sleep), and the detail text carries the
actionable key-console URL. -/
theorem c4_auth_401_immediate (st : GateState) (beh : Nat → Attempt)
    (h : beh 0 = .http401) :
    (callLLM st beh).result = .ok (.errAuth authDetail) ∧
    (callLLM st beh).sends = [gateWait st] ∧
    (callLLM st beh).finalNow = gateWait st ∧
    containsSub "https://console.groq.com/keys".data authDetail.data = true := by
  have hcall : callLLM st beh
      = ⟨.ok (.errAuth authDetail), [gateWait st], gateWait st, gateWait st⟩ := by
    show runAttempts beh maxRetries 0 (gateWait st) st.lastReq [] = _
    have h4 : maxRetries = 3 + 1 := rfl
    rw [h4]
    simp only [runAttempts]
    rw [h]
    rfl
  rw [hcall]
  exact ⟨rfl, rfl, rfl, by decide⟩

open LlmUtils in
/-- Claim C4 (witness): the theorem applied to an endpoint that always
returns 401. -/
theorem c4_witness :
    (callLLM ⟨0, 100⟩ (fun _ => .http401)).result = .ok (.errAuth authDetail) ∧
    (callLLM ⟨0, 100⟩ (fun _ => .http401)).sends = [gateWait ⟨0, 100⟩] ∧
    (callLLM ⟨0, 100⟩ (fun _ => .http401)).finalNow = gateWait ⟨0, 100⟩ ∧
    containsSub "https://console.groq.com/keys".data authDetail.data = true :=
  c4_auth_401_immediate ⟨0, 100⟩ (fun _ => .http401) rfl

open LlmUtils in
/-- Claim C5 (counterexample): the fixed 4-attempt budget does not hold on
every all-429 behaviour — a `retry-after` header parsing to `-5` makes
`call_llm` execute `time.sleep(min(-5 + 2, 90)) = time.sleep(-3)`, raising
`ValueError` after a single attempt, so neither the line-239
rate-limit-exhausted return nor the 4-send budget is reached. -/
theorem c5_counterexample :
    (callLLM ⟨0, 100⟩ (fun _ => .http429 (some (-5)))).result
      ≠ .ok (.errRateLimitExhausted exhaustedDetail) ∧
    (callLLM ⟨0, 100⟩ (fun _ => .http429 (some (-5)))).sends.length ≠ maxRetries := by
  constructor
  · intro h
    have h2 : (callLLM ⟨0, 100⟩ (fun _ => .http429 (some (-5)))).result
        = .error .sleepValueError := rfl
    rw [h] at h2
    exact Except.noConfusion h2
  · intro h
    have h2 : (callLLM ⟨0, 100⟩ (fun _ => .http429 (some (-5)))).sends.length = 1 := rfl
    rw [h] at h2
    exact absurd h2 (by decide)

open LlmUtils in
/-- Claim C5 (amended): when every attempt sees HTTP 429 and every
integer-parsed `retry-after` value is non-negative (or the header is
absent), `call_llm` makes exactly `max_retries = 4` sends and then returns
the rate-limit-exhausted failure of line 239; a negative `retry-after` can
instead abort the loop with an uncaught `ValueError`. -/
theorem c5_rate_limit_budget (st : GateState) (beh : Nat → Attempt)
    (h : ∀ i, ∃ ra, beh i = .http429 ra ∧ ∀ r, ra = some r → 0 ≤ r) :
    (callLLM st beh).result = .ok (.errRateLimitExhausted exhaustedDetail) ∧
    (callLLM st beh).sends.length = maxRetries := by
  obtain ⟨h1, h2⟩ := runAttempts_all429 beh h maxRetries 0 (gateWait st) st.lastReq []
  exact ⟨h1, by simpa using h2⟩

open LlmUtils in
/-- Claim C5 (witness): the theorem applied to an endpoint that always
returns 429 without a retry-after header. -/
theorem c5_witness :
    (callLLM ⟨0, 100⟩ (fun _ => .http429 none)).result
      = .ok (.errRateLimitExhausted exhaustedDetail) ∧
    (callLLM ⟨0, 100⟩ (fun _ => .http429 none)).sends.length = maxRetries :=
  c5_rate_limit_budget ⟨0, 100⟩ (fun _ => .http429 none)
    (fun _ => ⟨none, rfl, fun r hr => nomatch hr⟩)

open LlmUtils in
/-- Claim C8 (counterexample): with an *empty* supplied default,
`safe_json_parse` does not return the supplied default — Python's
`default or {...}` treats the falsy `{}` as absent and synthesizes the
`{error, raw}` mapping instead. -/
theorem c8_counterexample : safeJsonParse "{x}" (some []) ≠ JValue.jobj [] := by
  intro heq
  have h2 := congrArg (fun v => hasKey v "error") heq
  exact absurd h2 (by decide)

open LlmUtils in
/-- Claim C8 (amended): on double parse failure, `safe_json_parse` returns
the supplied default only when that default is truthy (a non-empty
mapping); when the default is absent (`None`) *or* empty, it synthesizes
the `{error, raw}` mapping. -/
theorem c8_amended (resp : String) (dflt : Option (List (String × JValue)))
    (e1 e2 : String)
    (h1 : jsonParseE (cleanJson resp) = .error e1)
    (h2 : jsonParseE (replaceQuotes (cleanJson resp)) = .error e2) :
    safeJsonParse resp dflt =
      match dflt with
      | some d => if d.isEmpty then synthErrorMap resp e1 else .jobj d
      | none => synthErrorMap resp e1 := by
  simp only [safeJsonParse]
  rw [h1, h2]

open LlmUtils in
/-- Claim C8 (witness): the amended theorem applied to the unparseable
input `"{x}"` and a non-empty default, which is returned unchanged. -/
theorem c8_witness :
    safeJsonParse "{x}" (some [("k", JValue.jnull)]) = .jobj [("k", JValue.jnull)] :=
  c8_amended "{x}" (some [("k", JValue.jnull)]) "Expecting value" "Expecting value" rfl rfl

namespace LlmUtils

theorem spacedChain_append (A : List Int) : ∀ (B : List Int),
    spacedChain A = true → spacedChain B = true →
    (∀ a ∈ A, ∀ b ∈ B, spaced a b) → spacedChain (A ++ B) = true := by
  induction A with
  | nil => intro B _ hB _; simpa using hB
  | cons a A' ih =>
    intro B h1 hB hab
    cases A' with
    | nil =>
      cases B with
      | nil => rfl
      | cons b B' =>
        have hs : spaced a b := hab a (by simp) b (by simp)
        show (decide (spaced a b) && spacedChain (b :: B')) = true
        simp [hs, hB]
    | cons a2 A'' =>
      have h1' : (decide (spaced a a2) && spacedChain (a2 :: A'')) = true := h1
      simp only [Bool.and_eq_true, decide_eq_true_eq] at h1'
      have hrest := ih B h1'.2 hB (fun t ht b hb => hab t (List.mem_cons_of_mem a ht) b hb)
      show (decide (spaced a a2) && spacedChain ((a2 :: A'') ++ B)) = true
      simp only [Bool.and_eq_true, decide_eq_true_eq]
      exact ⟨h1'.1, hrest⟩

theorem spacedChain_append_one (s : List Int) (x : Int)
    (h1 : spacedChain s = true) (h2 : ∀ t ∈ s, spaced t x) :
    spacedChain (s ++ [x]) = true :=
  spacedChain_append s [x] h1 rfl (fun a ha b hb => by
    have : b = x := by simpa using hb
    subst this
    exact h2 a ha)

theorem gateWait_ge (st : GateState) :
    st.lastReq + minRequestInterval ≤ gateWait st := by
  simp only [gateWait, minRequestInterval]
  split_ifs with h <;> omega

/-- Loop invariant for the spacing property: provided every integer
retry-after is at least 1, every sleep between two sends is at least
`MIN_REQUEST_INTERVAL`, so the recorded send timestamps stay spaced. -/
theorem runAttempts_spacing (beh : Nat → Attempt) (h : allRetryAfterAtLeast 1 beh) :
    ∀ fuel attempt now lastv sends,
      spacedChain sends = true →
      (∀ t ∈ sends, t + minRequestInterval ≤ now) →
      (∀ t ∈ sends, t ≤ lastv) →
      lastv ≤ now →
      spacedChain (runAttempts beh fuel attempt now lastv sends).sends = true ∧
      (∀ t ∈ (runAttempts beh fuel attempt now lastv sends).sends,
        t ≤ (runAttempts beh fuel attempt now lastv sends).finalLast) ∧
      (∀ t ∈ (runAttempts beh fuel attempt now lastv sends).sends,
        t ∈ sends ∨ now ≤ t) ∧
      lastv ≤ (runAttempts beh fuel attempt now lastv sends).finalLast := by
  intro fuel
  induction fuel with
  | zero =>
    intro attempt now lastv sends hch hnow hlast hlv
    exact ⟨hch, hlast, fun t ht => Or.inl ht, le_refl _⟩
  | succ f ih =>
    intro attempt now lastv sends hch hnow hlast hlv
    have hch' : spacedChain (sends ++ [now]) = true :=
      spacedChain_append_one sends now hch (fun t ht => hnow t ht)
    have hle' : ∀ t ∈ sends ++ [now], t ≤ now := by
      intro t ht
      rcases List.mem_append.mp ht with ht' | ht'
      · have := hnow t ht'
        simp only [minRequestInterval] at this
        omega
      · simp at ht'
        omega
    have hterm : ∀ t ∈ sends ++ [now], t ∈ sends ∨ now ≤ t := by
      intro t ht
      rcases List.mem_append.mp ht with ht' | ht'
      · exact Or.inl ht'
      · simp at ht'
        exact Or.inr (le_of_eq ht'.symm)
    have hstep : ∀ (w : Int), minRequestInterval ≤ w →
        spacedChain (runAttempts beh f (attempt + 1) (now + w) now (sends ++ [now])).sends
          = true ∧
        (∀ t ∈ (runAttempts beh f (attempt + 1) (now + w) now (sends ++ [now])).sends,
          t ≤ (runAttempts beh f (attempt + 1) (now + w) now (sends ++ [now])).finalLast) ∧
        (∀ t ∈ (runAttempts beh f (attempt + 1) (now + w) now (sends ++ [now])).sends,
          t ∈ sends ∨ now ≤ t) ∧
        now ≤ (runAttempts beh f (attempt + 1) (now + w) now (sends ++ [now])).finalLast := by
      intro w hw
      have hmin3 : minRequestInterval = 3 := rfl
      have h1 := ih (attempt + 1) (now + w) now (sends ++ [now]) hch'
        (by
          intro t ht
          rcases List.mem_append.mp ht with ht' | ht'
          · have := hnow t ht'
            omega
          · simp at ht'
            omega)
        hle' (by omega)
      refine ⟨h1.1, h1.2.1, ?_, h1.2.2.2⟩
      intro t ht
      rcases h1.2.2.1 t ht with h2 | h2
      · exact hterm t h2
      · right
        omega
    simp only [runAttempts]
    cases hba : beh attempt with
    | http401 =>
      exact ⟨hch', hle', hterm, by dsimp only; omega⟩
    | http429 ra =>
      have hw3 : minRequestInterval ≤ waitFor429 attempt ra := by
        have := waitFor429_ge_three attempt ra (retryAfterAtLeast_429 (hba ▸ h attempt))
        simpa [minRequestInterval] using this
      have hw0 : 0 ≤ waitFor429 attempt ra := le_trans (by decide) hw3
      dsimp only
      rw [sleepStep_of_nonneg now hw0]
      dsimp only
      obtain ⟨k1, k2, k3, k4⟩ := hstep (waitFor429 attempt ra) hw3
      exact ⟨k1, k2, k3, le_trans hlv k4⟩
    | timeout =>
      dsimp only
      by_cases hlt : attempt < maxRetries - 1
      · rw [if_pos hlt]
        obtain ⟨k1, k2, k3, k4⟩ := hstep 10 (by decide)
        exact ⟨k1, k2, k3, le_trans hlv k4⟩
      · rw [if_neg hlt]
        exact ⟨hch', hle', hterm, by dsimp only; omega⟩
    | transportError has429 =>
      dsimp only
      cases has429 with
      | true =>
        rw [if_pos rfl]
        by_cases hlt : attempt < maxRetries - 1
        · rw [if_pos hlt]
          obtain ⟨k1, k2, k3, k4⟩ := hstep (scheduleDelay attempt) (by
            have := scheduleDelay_ge_three attempt
            simpa [minRequestInterval] using this)
          exact ⟨k1, k2, k3, le_trans hlv k4⟩
        · rw [if_neg hlt]
          exact ⟨hch', hle', hterm, by dsimp only; omega⟩
      | false =>
        rw [if_neg (by simp)]
        exact ⟨hch', hle', hterm, by dsimp only; omega⟩
    | httpOkBody content =>
      dsimp only
      cases content with
      | none => exact ⟨hch', hle', hterm, by dsimp only; omega⟩
      | some c => exact ⟨hch', hle', hterm, by dsimp only; omega⟩

/-- Spacing across a whole sequence of invocations. -/
theorem runCalls_spacing : ∀ (calls : List (Int × (Nat → Attempt))) (st : GateState),
    (∀ c ∈ calls, allRetryAfterAtLeast 1 c.2) →
    spacedChain (runCalls st calls).1 = true ∧
    (∀ t ∈ (runCalls st calls).1, st.lastReq + minRequestInterval ≤ t) ∧
    (∀ t ∈ (runCalls st calls).1, t ≤ (runCalls st calls).2.lastReq) ∧
    st.lastReq ≤ (runCalls st calls).2.lastReq := by
  intro calls
  induction calls with
  | nil =>
    intro st _
    refine ⟨rfl, ?_, ?_, le_refl _⟩ <;> simp [runCalls]
  | cons c rest ih =>
    obtain ⟨idle, beh⟩ := c
    intro st h
    have hbeh : allRetryAfterAtLeast 1 beh := h (idle, beh) (by simp)
    have hrest : ∀ c ∈ rest, allRetryAfterAtLeast 1 c.2 :=
      fun c hc => h c (List.mem_cons_of_mem _ hc)
    have hg := gateWait_ge (⟨st.lastReq, st.now + idle⟩ : GateState)
    have hloop := runAttempts_spacing beh hbeh maxRetries 0
      (gateWait ⟨st.lastReq, st.now + idle⟩) st.lastReq [] rfl
      (by intro t ht; cases ht) (by intro t ht; cases ht)
      (by
        have hg2 : st.lastReq + minRequestInterval
            ≤ gateWait ⟨st.lastReq, st.now + idle⟩ := hg
        simp only [minRequestInterval] at hg2
        omega)
    obtain ⟨hc1, hc2, hc3, hc4⟩ := hloop
    have hsends_ge : ∀ t ∈ (callLLM ⟨st.lastReq, st.now + idle⟩ beh).sends,
        gateWait ⟨st.lastReq, st.now + idle⟩ ≤ t := by
      intro t ht
      rcases hc3 t ht with h2 | h2
      · cases h2
      · exact h2
    have hih := ih ⟨(callLLM ⟨st.lastReq, st.now + idle⟩ beh).finalLast,
      (callLLM ⟨st.lastReq, st.now + idle⟩ beh).finalNow⟩ hrest
    obtain ⟨hi1, hi2, hi3, hi4⟩ := hih
    have hgoal : runCalls st ((idle, beh) :: rest)
        = ((callLLM ⟨st.lastReq, st.now + idle⟩ beh).sends ++
            (runCalls ⟨(callLLM ⟨st.lastReq, st.now + idle⟩ beh).finalLast,
              (callLLM ⟨st.lastReq, st.now + idle⟩ beh).finalNow⟩ rest).1,
           (runCalls ⟨(callLLM ⟨st.lastReq, st.now + idle⟩ beh).finalLast,
              (callLLM ⟨st.lastReq, st.now + idle⟩ beh).finalNow⟩ rest).2) := rfl
    rw [hgoal]
    dsimp only at hg ⊢
    refine ⟨?_, ?_, ?_, ?_⟩
    · refine spacedChain_append _ _ hc1 hi1 ?_
      intro a ha b hb
      have h1 : a ≤ (callLLM ⟨st.lastReq, st.now + idle⟩ beh).finalLast := hc2 a ha
      have h2 := hi2 b hb
      simp only [spaced, minRequestInterval] at h2 ⊢
      omega
    · intro t ht
      rcases List.mem_append.mp ht with ht' | ht'
      · have := hsends_ge t ht'
        omega
      · have h2 := hi2 t ht'
        have h3 : st.lastReq ≤ (callLLM ⟨st.lastReq, st.now + idle⟩ beh).finalLast := hc4
        simp only [minRequestInterval] at h2 ⊢
        omega
    · intro t ht
      rcases List.mem_append.mp ht with ht' | ht'
      · have h1 := hc2 t ht'
        exact le_trans h1 hi4
      · exact hi3 t ht'
    · exact le_trans hc4 hi4

end LlmUtils

open LlmUtils in
/-- Claim C1 (counterexample): a 429 response carrying `retry-after: 0`
makes the loop sleep only `min(0 + 2, 90) = 2` units between two writes to
`LAST_REQUEST_TIME` — below `MIN_REQUEST_INTERVAL = 3`. -/
theorem c1_counterexample :
    spacedChain (runCalls ⟨0, 100⟩
      [((0 : Int), fun _ => Attempt.http429 (some 0))]).1 = false := by
  decide

open LlmUtils in
/-- Claim C1 (amended): across any sequence of invocations and retries,
consecutive writes to `LAST_REQUEST_TIME` are at least
`MIN_REQUEST_INTERVAL` apart, provided every integer `retry-after` value
the endpoint supplies is at least 1 (so that the `min(r + 2, 90)` wait is
at least 3); the schedule delays (5, 15, 30, 60), the timeout wait (10)
and the gate wait already satisfy the bound unconditionally. -/
theorem c1_amended (st : GateState) (calls : List (Int × (Nat → Attempt)))
    (h : ∀ c ∈ calls, allRetryAfterAtLeast 1 c.2) :
    spacedChain (runCalls st calls).1 = true :=
  (runCalls_spacing calls st h).1

open LlmUtils in
/-- Claim C1 (witness): the amended theorem applied to two invocations,
one exhausting the 429 path without a retry-after header, one hitting 401. -/
theorem c1_witness :
    spacedChain (runCalls ⟨0, 100⟩
      [((0 : Int), fun _ => Attempt.http429 none),
       ((5 : Int), fun _ => Attempt.http401)]).1 = true :=
  c1_amended ⟨0, 100⟩ _ (by
    intro c hc
    simp only [List.mem_cons, List.mem_singleton] at hc
    rcases hc with h | h | h
    · subst h; intro i; trivial
    · subst h; intro i; trivial
    · cases h)

namespace PdfUtils

theorem isPrefixOf_append_right {a b : List Char} (c : List Char)
    (h : a.isPrefixOf b = true) : a.isPrefixOf (b ++ c) = true := by
  induction a generalizing b with
  | nil => simp [List.isPrefixOf]
  | cons x a' ih =>
    cases b with
    | nil => simp [List.isPrefixOf] at h
    | cons y b' =>
      simp only [List.isPrefixOf, Bool.and_eq_true, beq_iff_eq, List.cons_append] at h ⊢
      exact ⟨h.1, ih h.2⟩

theorem startsWithStr_append (t m p : String) (h : startsWithStr t p = true) :
    startsWithStr (t ++ m) p = true := by
  simp only [startsWithStr, String.data_append]
  exact isPrefixOf_append_right _ h

theorem usableText_of_error (t m : String) (h : startsWithStr t "Error" = true) :
    App.usableText (t ++ m) = false := by
  simp [App.usableText, startsWithStr_append t m "Error" h]

end PdfUtils

open PdfUtils App in
/-- Claim C9 (counterexample): when `python-docx` is missing, the failure
string `"Please install python-docx: ..."` starts with neither `"Error"`
nor `"Could not"`, so the caller's prefix check accepts it as extracted
text instead of falling back to the default. -/
theorem c9_counterexample :
    extractTextFromFile false
      ⟨⟨none, .notInstalled, .notInstalled, .notInstalled⟩, .notInstalled, .strData ""⟩
      "cv.docx" = pleaseInstallDocxMsg ∧
    startsWithStr pleaseInstallDocxMsg "Error" = false ∧
    startsWithStr pleaseInstallDocxMsg "Could not" = false ∧
    handleUpload false
      ⟨⟨none, .notInstalled, .notInstalled, .notInstalled⟩, .notInstalled, .strData ""⟩
      "cv.docx" "DEFAULT TEXT" = pleaseInstallDocxMsg :=
  ⟨rfl, by decide, by decide, rfl⟩

open PdfUtils App in
/-- Claim C9 (amended): every diagnostic return of
`extract_text_from_file` is rejected by the caller's prefix/emptiness
check — *except* the missing-`python-docx` message and the
unsupported-format message (and a whitespace-only PDF accumulation, which
counts as extraction output below): whenever the caller accepts the
returned text, that text is genuine extraction output or one of those two
stray diagnostics. -/
theorem c9_amended (isNone : Bool) (env : UploadEnv) (fn : String)
    (h : usableText (extractTextFromFile isNone env fn) = true) :
    extractTextFromFile isNone env fn = pleaseInstallDocxMsg ∨
    extractTextFromFile isNone env fn = unsupportedMsg ∨
    extractTextFromFile isNone env fn ∈ extractionTexts env := by
  cases isNone with
  | true =>
    have hempty : extractTextFromFile true env fn = "" := rfl
    rw [hempty] at h
    exact absurd h (by decide)
  | false =>
    simp only [extractTextFromFile, Bool.false_eq_true, if_false] at h ⊢
    by_cases hpdf : endsWithStr (lowerStr fn) ".pdf" = true
    · rw [if_pos hpdf] at h ⊢
      cases hre : env.pdf.readErr with
      | some e =>
        rw [extractPdf, hre] at h
        dsimp only at h
        exact absurd h (by
          rw [show ("Error reading file: " ++ e) = "Error" ++ (" reading file: " ++ e) from rfl]
          simp [usableText_of_error "Error" (" reading file: " ++ e) (by decide)])
      | none =>
        rw [extractPdf, hre] at h ⊢
        dsimp only at h ⊢
        refine Or.inr (Or.inr ?_)
        simp only [extractionTexts, hre]
        split_ifs at h ⊢ with h1 h2 h3 h4
        · simp
        · simp
        · simp
        · simp
        · exact absurd h (by decide)
    · rw [if_neg hpdf] at h ⊢
      by_cases hdocx : endsWithStr (lowerStr fn) ".docx" = true
      · rw [if_pos hdocx] at h ⊢
        cases hd : env.docx with
        | notInstalled => exact Or.inl rfl
        | raises m =>
          rw [hd] at h
          simp only [extractDocx] at h
          exact absurd h (by
            rw [show ("Error extracting DOCX: " ++ m)
              = "Error" ++ (" extracting DOCX: " ++ m) from rfl]
            simp [usableText_of_error "Error" (" extracting DOCX: " ++ m) (by decide)])
        | ok ps tbls =>
          refine Or.inr (Or.inr ?_)
          simp [extractionTexts, hd]
      · rw [if_neg hdocx] at h ⊢
        by_cases htxt : endsWithStr (lowerStr fn) ".txt" = true
        · rw [if_pos htxt] at h ⊢
          cases ht : env.txt with
          | raises m =>
            rw [ht] at h
            simp only [extractTxt] at h
            exact absurd h (by
              rw [show ("Error reading TXT file: " ++ m)
                = "Error" ++ (" reading TXT file: " ++ m) from rfl]
              simp [usableText_of_error "Error" (" reading TXT file: " ++ m) (by decide)])
          | bytesData u latin =>
            refine Or.inr (Or.inr ?_)
            simp [extractionTexts, ht]
          | strData s =>
            refine Or.inr (Or.inr ?_)
            simp [extractionTexts, ht]
        · rw [if_neg htxt] at h ⊢
          exact Or.inr (Or.inl rfl)

open PdfUtils App in
/-- Claim C9 (witness): the amended theorem applied to a text file whose
read yields a plain string — the accepted text is genuine extraction
output. -/
theorem c9_witness :
    extractTextFromFile false
      ⟨⟨none, .notInstalled, .notInstalled, .notInstalled⟩, .notInstalled,
        .strData "resume text"⟩ "cv.txt" = pleaseInstallDocxMsg ∨
    extractTextFromFile false
      ⟨⟨none, .notInstalled, .notInstalled, .notInstalled⟩, .notInstalled,
        .strData "resume text"⟩ "cv.txt" = unsupportedMsg ∨
    extractTextFromFile false
      ⟨⟨none, .notInstalled, .notInstalled, .notInstalled⟩, .notInstalled,
        .strData "resume text"⟩ "cv.txt" ∈ extractionTexts
      ⟨⟨none, .notInstalled, .notInstalled, .notInstalled⟩, .notInstalled,
        .strData "resume text"⟩ :=
  c9_amended false
    ⟨⟨none, .notInstalled, .notInstalled, .notInstalled⟩, .notInstalled,
      .strData "resume text"⟩ "cv.txt" (by decide)

/-! ## Backtick-run and substitution lemmas -/

namespace LlmUtils

theorem hasTriple_cons (c : Char) (l : List Char) :
    hasTriple (c :: l) = ((c = tick && twoTicks l) || hasTriple l) := by
  match l with
  | [] => simp [hasTriple, twoTicks]
  | [b] => simp [hasTriple, twoTicks]
  | b :: d :: r => simp [hasTriple, twoTicks, Bool.and_assoc]

theorem hasTriple_of_no_tick {l : List Char} (h : ∀ x ∈ l, x ≠ tick) :
    hasTriple l = false := by
  induction l with
  | nil => rfl
  | cons c r ih =>
    rw [hasTriple_cons]
    simp only [Bool.or_eq_false_iff, Bool.and_eq_false_iff]
    exact ⟨Or.inl (by simp [h c (by simp)]),
      ih (fun x hx => h x (List.mem_cons_of_mem c hx))⟩

theorem twoTicks_of_no_tick {l : List Char} (h : ∀ x ∈ l, x ≠ tick) :
    twoTicks l = false := by
  match l with
  | [] => rfl
  | [x] => rfl
  | x :: y :: r => simp [twoTicks, h x (by simp)]

theorem twoTicks_append_of_no_tick {a b : List Char} (hb : ∀ x ∈ b, x ≠ tick) :
    twoTicks (a ++ b) = twoTicks a := by
  match a with
  | [] =>
    rw [List.nil_append, twoTicks_of_no_tick hb]
    rfl
  | [y] =>
    match b with
    | [] => rfl
    | x :: r =>
      show twoTicks (y :: x :: r) = twoTicks [y]
      simp [twoTicks, hb x (by simp)]
  | y :: z :: r => rfl

theorem hasTriple_append_left {x y : List Char} (h : hasTriple (x ++ y) = false) :
    hasTriple x = false := by
  induction x with
  | nil => rfl
  | cons c x' ih =>
    rw [List.cons_append, hasTriple_cons] at h
    rw [hasTriple_cons]
    simp only [Bool.or_eq_false_iff, Bool.and_eq_false_iff] at h ⊢
    refine ⟨?_, ih h.2⟩
    rcases h.1 with h1 | h1
    · exact Or.inl h1
    · right
      by_contra h2
      rw [Bool.not_eq_false] at h2
      have h3 : twoTicks (x' ++ y) = true := by
        match x' with
        | [] => simp [twoTicks] at h2
        | [p] => simp [twoTicks] at h2
        | p :: q :: r => exact h2
      rw [h3] at h1
      cases h1

theorem hasTriple_append_right {x y : List Char} (h : hasTriple (x ++ y) = false) :
    hasTriple y = false := by
  induction x with
  | nil => exact h
  | cons c x' ih =>
    rw [List.cons_append, hasTriple_cons] at h
    simp only [Bool.or_eq_false_iff] at h
    exact ih h.2

theorem hasTriple_append_of_true {x y : List Char} (h : hasTriple y = true) :
    hasTriple (x ++ y) = true := by
  induction x with
  | nil => exact h
  | cons c x' ih =>
    rw [List.cons_append, hasTriple_cons, ih]
    simp

theorem hasTriple_append_no_tick_left {a b : List Char} (ha : ∀ x ∈ a, x ≠ tick) :
    hasTriple (a ++ b) = hasTriple b := by
  induction a with
  | nil => rfl
  | cons c a' ih =>
    rw [List.cons_append, hasTriple_cons, ih (fun x hx => ha x (List.mem_cons_of_mem c hx))]
    simp [ha c (by simp)]

theorem hasTriple_append_false {a b : List Char} (ha : hasTriple a = false)
    (hb : ∀ x ∈ b, x ≠ tick) : hasTriple (a ++ b) = false := by
  induction a with
  | nil => exact hasTriple_of_no_tick hb
  | cons c a' ih =>
    rw [hasTriple_cons] at ha
    simp only [Bool.or_eq_false_iff] at ha
    rw [List.cons_append, hasTriple_cons, ih ha.2, twoTicks_append_of_no_tick hb]
    simpa using ha.1

theorem hasTriple_take {l : List Char} (h : hasTriple l = false) (n : Nat) :
    hasTriple (l.take n) = false :=
  hasTriple_append_left (x := l.take n) (y := l.drop n)
    (by rw [List.take_append_drop]; exact h)

theorem hasTriple_drop {l : List Char} (h : hasTriple l = false) (n : Nat) :
    hasTriple (l.drop n) = false :=
  hasTriple_append_right (x := l.take n) (y := l.drop n)
    (by rw [List.take_append_drop]; exact h)

theorem length_dropWhile_le (p : Char → Bool) (l : List Char) :
    (l.dropWhile p).length ≤ l.length := by
  induction l with
  | nil => simp [List.dropWhile]
  | cons c r ih =>
    rw [List.dropWhile]
    split
    · exact le_trans ih (by simp)
    · simp

end LlmUtils

namespace LlmUtils

theorem length_consumeOptN_le (l : List Char) : (consumeOptN l).length ≤ l.length := by
  match l with
  | [] => simp [consumeOptN]
  | c :: r =>
    rw [consumeOptN]
    split
    · simp
    · simp

theorem matchJsonFence_shrink {l r' : List Char} (h : matchJsonFence l = some r') :
    r'.length < l.length := by
  match l with
  | [] => cases h
  | [a] => cases h
  | [a, b] => cases h
  | [a, b, c] => cases h
  | [a, b, c, d] => cases h
  | [a, b, c, d, e] => cases h
  | a :: b :: c :: d :: e :: f :: rest =>
    rw [matchJsonFence] at h
    split at h
    · have hr : r' = dropWs (consumeOptN rest) := by
        cases h
        rfl
      subst hr
      have h1 := length_dropWhile_le isSp (consumeOptN rest)
      have h2 := length_consumeOptN_le rest
      simp only [dropWs] at h1 ⊢
      simp only [List.length_cons]
      omega
    · cases h

theorem matchBareFence_shrink {l r' : List Char} (h : matchBareFence l = some r') :
    r'.length < l.length := by
  match l with
  | [] => cases h
  | [a] => cases h
  | [a, b] => cases h
  | a :: b :: c :: rest =>
    rw [matchBareFence] at h
    split at h
    · have hr : r' = dropWs rest := by
        cases h
        rfl
      subst hr
      have h1 := length_dropWhile_le isSp rest
      simp only [dropWs] at h1 ⊢
      simp only [List.length_cons]
      omega
    · cases h

theorem matchCommaClose_spec {close : Char} {l r' : List Char}
    (h : matchCommaClose close l = some r') :
    ∃ ws, l = ',' :: (ws ++ close :: r') ∧ ∀ x ∈ ws, isSp x = true := by
  match l with
  | [] => cases h
  | c :: rest =>
    rw [matchCommaClose] at h
    split at h
    · rename_i hc
      subst hc
      rcases hd : rest.dropWhile isSp with _ | ⟨d, r2⟩
      · rw [hd] at h
        cases h
      · rw [hd] at h
        dsimp only at h
        split at h
        · rename_i hdc
          injection h with hr
          subst hr
          subst hdc
          refine ⟨rest.takeWhile isSp, ?_, ?_⟩
          · have hsplit := List.takeWhile_append_dropWhile isSp rest
            rw [hd] at hsplit
            rw [hsplit]
          · intro x hx
            exact List.mem_takeWhile_imp hx
        · cases h
    · cases h

theorem matchCommaClose_shrink {close : Char} {l r' : List Char}
    (h : matchCommaClose close l = some r') : r'.length < l.length := by
  obtain ⟨ws, hl, _⟩ := matchCommaClose_spec h
  subst hl
  simp only [List.length_cons, List.length_append]
  omega

/-- Fuel beyond the list length does not change a substitution's value. -/
theorem subF_fuel {pat : List Char → Option (List Char)} {repl : List Char}
    (hsh : ∀ l r', pat l = some r' → r'.length < l.length) :
    ∀ f l, l.length ≤ f → subF pat repl f l = subRun pat repl l := by
  intro f
  induction f using Nat.strong_induction_on with
  | _ f ihf =>
    intro l hl
    match f, l with
    | 0, l =>
      have : l = [] := by
        cases l with
        | nil => rfl
        | cons c r => simp at hl
      subst this
      rfl
    | f + 1, [] => rfl
    | f + 1, c :: rest =>
      rw [subRun]
      simp only [List.length_cons] at hl ⊢
      rw [subF, subF]
      cases hp : pat (c :: rest) with
      | some r' =>
        dsimp only
        have hless := hsh _ _ hp
        simp only [List.length_cons] at hless
        have h1 : subF pat repl f r' = subRun pat repl r' :=
          ihf f (by omega) r' (by omega)
        have h2 : subF pat repl rest.length r' = subRun pat repl r' :=
          ihf rest.length (by omega) r' (by omega)
        rw [h1, h2]
      | none =>
        dsimp only
        have h1 : subF pat repl f rest = subRun pat repl rest :=
          ihf f (by omega) rest (by omega)
        rw [h1]
        rfl

/-- A substitution skips over a block in which no match can start. -/
theorem subRun_append_none {pat : List Char → Option (List Char)} {repl : List Char}
    {a : List Char} (z : List Char)
    (ha : ∀ c ∈ a, ∀ rest, pat (c :: rest) = none) :
    subRun pat repl (a ++ z) = a ++ subRun pat repl z := by
  induction a with
  | nil => rfl
  | cons c a' ih =>
    have hnone := ha c (by simp) (a' ++ z)
    rw [List.cons_append, subRun]
    simp only [List.length_cons]
    rw [subF, hnone]
    rw [show subF pat repl (a' ++ z).length (a' ++ z) = subRun pat repl (a' ++ z) from rfl]
    rw [ih (fun x hx rest => ha x (List.mem_cons_of_mem c hx) rest)]
    rfl

/-- A substitution whose pattern fires only at three backticks skips over
any triple-free block, provided the continuation does not start with a
backtick. -/
theorem subRun_append_noTriple {pat : List Char → Option (List Char)} {repl : List Char}
    (hfire : ∀ l r', pat l = some r' → ∃ y, l = tick :: tick :: tick :: y) :
    ∀ (a z : List Char), hasTriple a = false → z.head? ≠ some tick →
    subRun pat repl (a ++ z) = a ++ subRun pat repl z := by
  intro a
  induction a with
  | nil => intro z _ _; rfl
  | cons c a' ih =>
    intro z hA hz
    rw [hasTriple_cons] at hA
    simp only [Bool.or_eq_false_iff, Bool.and_eq_false_iff] at hA
    cases hp : pat (c :: (a' ++ z)) with
    | some r' =>
      exfalso
      obtain ⟨y, hy⟩ := hfire _ _ hp
      have hc : c = tick := by
        injection hy with h1 _
      have hrest : a' ++ z = tick :: tick :: y := by
        injection hy with _ h2
      match a', hrest with
      | [], hrest =>
        rw [List.nil_append] at hrest
        apply hz
        rw [hrest]
        rfl
      | [x], hrest =>
        rw [List.cons_append, List.nil_append] at hrest
        injection hrest with hx h3
        apply hz
        rw [h3]
        rfl
      | x1 :: x2 :: a'', hrest =>
        injection hrest with hx1 h3
        injection h3 with hx2 _
        rcases hA.1 with h4 | h4
        · rw [hc] at h4
          simp at h4
        · rw [show twoTicks (x1 :: x2 :: a'') = (decide (x1 = tick) && decide (x2 = tick))
            from rfl] at h4
          rw [hx1, hx2] at h4
          simp at h4
    | none =>
      rw [List.cons_append, subRun]
      simp only [List.length_cons]
      rw [subF, hp]
      rw [show subF pat repl (a' ++ z).length (a' ++ z) = subRun pat repl (a' ++ z) from rfl]
      rw [ih z hA.2 hz]
      rfl

theorem matchJsonFence_fire {l r' : List Char} (h : matchJsonFence l = some r') :
    ∃ y, l = tick :: tick :: tick :: y := by
  match l with
  | [] => cases h
  | [a] => cases h
  | [a, b] => cases h
  | [a, b, c] => cases h
  | [a, b, c, d] => cases h
  | [a, b, c, d, e] => cases h
  | a :: b :: c :: d :: e :: f :: rest =>
    rw [matchJsonFence] at h
    split at h
    · rename_i hcond
      simp only [Bool.and_eq_true, decide_eq_true_eq] at hcond
      exact ⟨d :: e :: f :: rest, by
        rw [hcond.1.1.1.1.1, hcond.1.1.1.1.2, hcond.1.1.1.2]⟩
    · cases h

theorem matchBareFence_fire {l r' : List Char} (h : matchBareFence l = some r') :
    ∃ y, l = tick :: tick :: tick :: y := by
  match l with
  | [] => cases h
  | [a] => cases h
  | [a, b] => cases h
  | a :: b :: c :: rest =>
    rw [matchBareFence] at h
    split at h
    · rename_i hcond
      simp only [Bool.and_eq_true, decide_eq_true_eq] at hcond
      exact ⟨rest, by rw [hcond.1.1, hcond.1.2, hcond.2]⟩
    · cases h

theorem matchJsonFence_none_of_head {c : Char} (l : List Char) (hc : c ≠ tick) :
    matchJsonFence (c :: l) = none := by
  cases hp : matchJsonFence (c :: l) with
  | none => rfl
  | some r' =>
    obtain ⟨y, hy⟩ := matchJsonFence_fire hp
    injection hy with h1 _
    exact absurd h1 hc

theorem matchBareFence_none_of_head {c : Char} (l : List Char) (hc : c ≠ tick) :
    matchBareFence (c :: l) = none := by
  cases hp : matchBareFence (c :: l) with
  | none => rfl
  | some r' =>
    obtain ⟨y, hy⟩ := matchBareFence_fire hp
    injection hy with h1 _
    exact absurd h1 hc

theorem matchCommaClose_none_of_head {close c : Char} (l : List Char) (hc : c ≠ ',') :
    matchCommaClose close (c :: l) = none := by
  rw [matchCommaClose]
  simp [hc]

/-- The output of a substitution is a sublist of its input, whenever each
match region contains the replacement as a sublist. -/
theorem subF_sublist {pat : List Char → Option (List Char)} {repl : List Char}
    (hsp : ∀ l r', pat l = some r' → ∃ mid, l = mid ++ r' ∧ repl.Sublist mid) :
    ∀ f l, (subF pat repl f l).Sublist l := by
  intro f
  induction f with
  | zero => intro l; exact List.Sublist.refl l
  | succ f ih =>
    intro l
    match l with
    | [] => exact List.Sublist.refl []
    | c :: rest =>
      rw [subF]
      cases hp : pat (c :: rest) with
      | some r' =>
        obtain ⟨mid, hmid, hrepl⟩ := hsp _ _ hp
        rw [hmid]
        exact List.Sublist.append hrepl (ih r')
      | none =>
        exact List.Sublist.cons₂ c (ih rest)

theorem matchJsonFence_split {l r' : List Char} (h : matchJsonFence l = some r') :
    ∃ mid, l = mid ++ r' ∧ ([] : List Char).Sublist mid := by
  match l with
  | [] => cases h
  | [a] => cases h
  | [a, b] => cases h
  | [a, b, c] => cases h
  | [a, b, c, d] => cases h
  | [a, b, c, d, e] => cases h
  | a :: b :: c :: d :: e :: f :: rest =>
    rw [matchJsonFence] at h
    split at h
    · have hr : r' = dropWs (consumeOptN rest) := by
        cases h
        rfl
      subst hr
      match rest with
      | [] =>
        exact ⟨[a, b, c, d, e, f], by simp [consumeOptN, dropWs, List.dropWhile], by simp⟩
      | cc :: rr =>
        by_cases hcc : cc = 'n'
        · subst hcc
          refine ⟨a :: b :: c :: d :: e :: f :: 'n' :: rr.takeWhile isSp, ?_, by simp⟩
          have hco : consumeOptN ('n' :: rr) = rr := by simp [consumeOptN]
          rw [hco]
          simp only [List.cons_append, List.cons.injEq, true_and]
          conv_lhs => rw [← List.takeWhile_append_dropWhile isSp rr]
          rfl
        · refine ⟨a :: b :: c :: d :: e :: f :: (cc :: rr).takeWhile isSp, ?_, by simp⟩
          have hco : consumeOptN (cc :: rr) = cc :: rr := by simp [consumeOptN, hcc]
          rw [hco]
          simp only [List.cons_append, List.cons.injEq, true_and]
          conv_lhs => rw [← List.takeWhile_append_dropWhile isSp (cc :: rr)]
          rfl
    · cases h

theorem matchBareFence_split {l r' : List Char} (h : matchBareFence l = some r') :
    ∃ mid, l = mid ++ r' ∧ ([] : List Char).Sublist mid := by
  match l with
  | [] => cases h
  | [a] => cases h
  | [a, b] => cases h
  | a :: b :: c :: rest =>
    rw [matchBareFence] at h
    split at h
    · have hr : r' = dropWs rest := by
        cases h
        rfl
      subst hr
      refine ⟨a :: b :: c :: rest.takeWhile isSp, ?_, by simp⟩
      conv_lhs => rw [show rest = rest.takeWhile isSp ++ rest.dropWhile isSp from
        (List.takeWhile_append_dropWhile isSp rest).symm]
      simp [dropWs]
    · cases h

theorem matchCommaClose_split {close : Char} {l r' : List Char}
    (h : matchCommaClose close l = some r') :
    ∃ mid, l = mid ++ r' ∧ [close].Sublist mid := by
  obtain ⟨ws, hl, _⟩ := matchCommaClose_spec h
  refine ⟨',' :: (ws ++ [close]), ?_, ?_⟩
  · rw [hl]
    simp
  · refine List.Sublist.cons ',' ?_
    exact (List.sublist_append_right ws [close]).trans (List.Sublist.refl _) |>.trans
      (List.Sublist.refl _)

end LlmUtils

namespace LlmUtils

theorem subRun_cons_none {pat : List Char → Option (List Char)} {repl : List Char}
    {c : Char} {r : List Char} (h : pat (c :: r) = none) :
    subRun pat repl (c :: r) = c :: subRun pat repl r := by
  rw [subRun]
  simp only [List.length_cons]
  rw [subF, h]
  rfl

theorem subRun_cons_some {pat : List Char → Option (List Char)} {repl : List Char}
    {c : Char} {r r' : List Char}
    (hsh : ∀ l r', pat l = some r' → r'.length < l.length)
    (h : pat (c :: r) = some r') :
    subRun pat repl (c :: r) = repl ++ subRun pat repl r' := by
  rw [subRun]
  simp only [List.length_cons]
  rw [subF, h]
  dsimp only
  rw [subF_fuel hsh r.length r' (by
    have := hsh _ _ h
    simp only [List.length_cons] at this
    omega)]

theorem twoTicks_cons_of_ne {c : Char} (m : List Char) (hc : c ≠ tick) :
    twoTicks (c :: m) = false := by
  match m with
  | [] => rfl
  | w :: r => simp [twoTicks, hc]

theorem matchBareFence_none_twoTicks {rest : List Char}
    (h : matchBareFence (tick :: rest) = none) : twoTicks rest = false := by
  match rest with
  | [] => rfl
  | [x] => rfl
  | x :: y :: r =>
    by_contra h2
    rw [Bool.not_eq_false] at h2
    have hx : x = tick ∧ y = tick := by simpa [twoTicks] using h2
    rw [matchBareFence] at h
    simp [hx.1, hx.2] at h

theorem twoTicks_subRun_bare {rest : List Char} (h : twoTicks rest = false) :
    twoTicks (subRun matchBareFence [] rest) = false := by
  match rest with
  | [] => rfl
  | x :: r2 =>
    cases hp : matchBareFence (x :: r2) with
    | some r' =>
      obtain ⟨y, hy⟩ := matchBareFence_fire hp
      injection hy with h1 h2
      subst h1
      rw [h2] at h
      simp [twoTicks] at h
    | none =>
      rw [subRun_cons_none hp]
      by_cases hx : x = tick
      · subst hx
        match r2, h with
        | [], _ => rfl
        | z :: r3, h =>
          have hz : z ≠ tick := by
            intro hz
            subst hz
            simp [twoTicks] at h
          cases hp2 : matchCommaClose ',' (z :: r3) with
          | _ =>
            cases hp3 : matchBareFence (z :: r3) with
            | some r'' =>
              obtain ⟨y, hy⟩ := matchBareFence_fire hp3
              injection hy with h1 _
              exact absurd h1 hz
            | none =>
              rw [subRun_cons_none hp3]
              simp [twoTicks, hz]
      · exact twoTicks_cons_of_ne _ hx

/-- The output of the bare-fence removal never contains three consecutive
backticks: this is why a second `clean_json_response` pass skips the fence
subs. -/
theorem hasTriple_subRun_bare : ∀ l, hasTriple (subRun matchBareFence [] l) = false := by
  have main : ∀ n l, l.length ≤ n → hasTriple (subRun matchBareFence [] l) = false := by
    intro n
    induction n using Nat.strong_induction_on with
    | _ n ihn =>
      intro l hl
      match l with
      | [] => rfl
      | c :: rest =>
        simp only [List.length_cons] at hl
        cases hp : matchBareFence (c :: rest) with
        | some r' =>
          have hshr := matchBareFence_shrink hp
          simp only [List.length_cons] at hshr
          rw [subRun_cons_some (fun l r' h => matchBareFence_shrink h) hp, List.nil_append]
          exact ihn r'.length (by omega) r' (le_refl _)
        | none =>
          rw [subRun_cons_none hp, hasTriple_cons]
          simp only [Bool.or_eq_false_iff, Bool.and_eq_false_iff]
          constructor
          · by_cases hc : c = tick
            · subst hc
              exact Or.inr (twoTicks_subRun_bare (matchBareFence_none_twoTicks hp))
            · exact Or.inl (by simp [hc])
          · exact ihn rest.length (by omega) rest (le_refl _)
  exact fun l => main l.length l (le_refl _)

theorem rbrace_ne_tick : rbrace ≠ tick := by decide

theorem rbracket_ne_tick : rbracket ≠ tick := by decide

theorem twoTicks_subRun_repair {close : Char} (hcl : close ≠ tick) {rest : List Char}
    (h : twoTicks rest = false) :
    twoTicks (subRun (matchCommaClose close) [close] rest) = false := by
  match rest with
  | [] => rfl
  | x :: r2 =>
    cases hp : matchCommaClose close (x :: r2) with
    | some r' =>
      rw [subRun_cons_some (fun l r' h => matchCommaClose_shrink h) hp,
        List.singleton_append]
      exact twoTicks_cons_of_ne _ hcl
    | none =>
      rw [subRun_cons_none hp]
      by_cases hx : x = tick
      · subst hx
        match r2, h with
        | [], _ => rfl
        | z :: r3, h =>
          have hz : z ≠ tick := by
            intro hz
            subst hz
            simp [twoTicks] at h
          cases hp2 : matchCommaClose close (z :: r3) with
          | some r'' =>
            rw [subRun_cons_some (fun l r' h => matchCommaClose_shrink h) hp2,
              List.singleton_append]
            simp [twoTicks, hcl]
          | none =>
            rw [subRun_cons_none hp2]
            simp [twoTicks, hz]
      · exact twoTicks_cons_of_ne _ hx

/-- The comma repairs preserve triple-backtick-freeness. -/
theorem hasTriple_subRun_repair (close : Char) (hcl : close ≠ tick) :
    ∀ l, hasTriple l = false →
    hasTriple (subRun (matchCommaClose close) [close] l) = false := by
  have main : ∀ n l, l.length ≤ n → hasTriple l = false →
      hasTriple (subRun (matchCommaClose close) [close] l) = false := by
    intro n
    induction n using Nat.strong_induction_on with
    | _ n ihn =>
      intro l hl h
      match l with
      | [] => rfl
      | c :: rest =>
        simp only [List.length_cons] at hl
        rw [hasTriple_cons] at h
        simp only [Bool.or_eq_false_iff, Bool.and_eq_false_iff] at h
        cases hp : matchCommaClose close (c :: rest) with
        | some r' =>
          have hshr := matchCommaClose_shrink hp
          simp only [List.length_cons] at hshr
          obtain ⟨ws, hlspec, _⟩ := matchCommaClose_spec hp
          have hr' : hasTriple r' = false := by
            injection hlspec with _ hrest
            have h2 : hasTriple (ws ++ close :: r') = false := by
              rw [← hrest]
              exact h.2
            have h3 := hasTriple_append_right h2
            rw [hasTriple_cons] at h3
            simp only [Bool.or_eq_false_iff] at h3
            exact h3.2
          rw [subRun_cons_some (fun l r' h => matchCommaClose_shrink h) hp,
            List.singleton_append, hasTriple_cons]
          simp only [Bool.or_eq_false_iff, Bool.and_eq_false_iff]
          exact ⟨Or.inl (by simp [hcl]),
            ihn r'.length (by omega) r' (le_refl _) hr'⟩
        | none =>
          rw [subRun_cons_none hp, hasTriple_cons]
          simp only [Bool.or_eq_false_iff, Bool.and_eq_false_iff]
          constructor
          · by_cases hc : c = tick
            · subst hc
              refine Or.inr (twoTicks_subRun_repair hcl ?_)
              rcases h.1 with h1 | h1
              · simp at h1
              · exact h1
            · exact Or.inl (by simp [hc])
          · exact ihn rest.length (by omega) rest (le_refl _) h.2
  exact fun l => main l.length l (le_refl _)

end LlmUtils

namespace LlmUtils

theorem subRun_repair_head {close : Char} {l : List Char} {x : Char}
    (hx : l.head? = some x) (hc : x ≠ ',') :
    (subRun (matchCommaClose close) [close] l).head? = some x := by
  match l with
  | [] => cases hx
  | c :: r =>
    injection hx with hcx
    subst hcx
    rw [subRun_cons_none (matchCommaClose_none_of_head r hc)]
    rfl

theorem subRun_repair_ne_nil {close : Char} {l : List Char} (h : l ≠ []) :
    subRun (matchCommaClose close) [close] l ≠ [] := by
  match l with
  | [] => exact absurd rfl h
  | c :: r =>
    cases hp : matchCommaClose close (c :: r) with
    | some r' =>
      rw [subRun_cons_some (fun l r' h => matchCommaClose_shrink h) hp,
        List.singleton_append]
      simp
    | none =>
      rw [subRun_cons_none hp]
      simp

theorem subRun_any_fuel_nil {pat : List Char → Option (List Char)} {repl : List Char}
    (f : Nat) : subF pat repl f [] = [] := by
  cases f with
  | zero => rfl
  | succ f => rfl

/-- The comma repairs keep a final `}` final: a `,\s*]` match never ends at
the last position of a `}`-terminated list, and a `,\s*}` match that does
end there emits the same `}`. -/
theorem subRun_repair_getLast (close : Char) (hc : close = rbrace ∨ close = rbracket) :
    ∀ l, l.getLast? = some rbrace →
    (subRun (matchCommaClose close) [close] l).getLast? = some rbrace := by
  have main : ∀ n l, l.length ≤ n → l.getLast? = some rbrace →
      (subRun (matchCommaClose close) [close] l).getLast? = some rbrace := by
    intro n
    induction n using Nat.strong_induction_on with
    | _ n ihn =>
      intro l hl hlast
      match l with
      | [] => cases hlast
      | c :: rest =>
        simp only [List.length_cons] at hl
        cases hp : matchCommaClose close (c :: rest) with
        | none =>
          rw [subRun_cons_none hp]
          match rest with
          | [] =>
            injection hlast with hcr
            rw [show subRun (matchCommaClose close) [close] [] = [] from rfl]
            simpa using hcr
          | y :: r2 =>
            have hlast2 : (y :: r2).getLast? = some rbrace := by
              rwa [List.getLast?_cons_cons] at hlast
            have hne := @subRun_repair_ne_nil close (y :: r2) (by simp)
            have hih := ihn (y :: r2).length (by omega) (y :: r2) (le_refl _) hlast2
            rcases hq : subRun (matchCommaClose close) [close] (y :: r2) with _ | ⟨d, dr⟩
            · exact absurd hq hne
            · rw [hq] at hih
              rw [List.getLast?_cons_cons]
              exact hih
        | some r' =>
          obtain ⟨ws, hlspec, _⟩ := matchCommaClose_spec hp
          have hshr := matchCommaClose_shrink hp
          simp only [List.length_cons] at hshr
          rw [subRun_cons_some (fun l r' h => matchCommaClose_shrink h) hp,
            List.singleton_append]
          match r' with
          | [] =>
            have hcl : close = rbrace := by
              have h2 : (c :: rest).getLast? = some close := by
                rw [hlspec]
                rw [show ',' :: (ws ++ [close]) = (',' :: ws) ++ [close] from by simp]
                exact List.getLast?_concat _
              rw [hlast] at h2
              injection h2 with h3
              exact h3.symm
            rw [show subRun (matchCommaClose close) [close] [] = [] from rfl]
            simp [hcl]
          | w :: r'' =>
            have hlast2 : (w :: r'').getLast? = some rbrace := by
              have h2 : (c :: rest).getLast? = (w :: r'').getLast? := by
                rw [hlspec]
                rw [show ',' :: (ws ++ close :: w :: r'')
                  = (',' :: ws ++ [close]) ++ (w :: r'') from by simp]
                rw [List.getLast?_append]
                rcases hq : (w :: r'').getLast? with _ | v
                · rw [List.getLast?_eq_none_iff] at hq
                  cases hq
                · rfl
              rw [← h2]
              exact hlast
            have hne := @subRun_repair_ne_nil close (w :: r'') (by simp)
            have hih := ihn (w :: r'').length (by omega) (w :: r'') (le_refl _) hlast2
            rcases hq : subRun (matchCommaClose close) [close] (w :: r'') with _ | ⟨d, dr⟩
            · exact absurd hq hne
            · rw [hq] at hih
              rw [List.getLast?_cons_cons]
              exact hih
  exact fun l => main l.length l (le_refl _)

theorem mem_dropWhile {p : Char → Bool} {x : Char} {l : List Char}
    (h : x ∈ l.dropWhile p) : x ∈ l := by
  induction l with
  | nil => simpa using h
  | cons c r ih =>
    rw [List.dropWhile] at h
    split at h
    · exact List.mem_cons_of_mem c (ih h)
    · exact h

theorem stripL_eq_self {l : List Char} {h0 e : Char} (hh : l.head? = some h0)
    (hsp1 : isSp h0 = false) (hl : l.getLast? = some e) (hsp2 : isSp e = false) :
    stripL l = l := by
  match l with
  | c :: r =>
    injection hh with hch
    have hsp1' : isSp c = false := by
      rw [hch]
      exact hsp1
    rw [stripL]
    have h1 : (c :: r).dropWhile isSp = c :: r := by
      rw [List.dropWhile]
      simp [hsp1']
    rw [h1]
    rcases hrev : (c :: r).reverse with _ | ⟨d, rr⟩
    · have hlen := congrArg List.length hrev
      simp at hlen
    · have hrevh : (c :: r).reverse.head? = some e := by
        rw [List.head?_reverse]
        exact hl
      rw [hrev] at hrevh
      injection hrevh with hde
      have hsp2' : isSp d = false := by
        rw [hde]
        exact hsp2
      have h2 : (d :: rr).dropWhile isSp = d :: rr := by
        rw [List.dropWhile]
        simp [hsp2']
      rw [h2, ← hrev, List.reverse_reverse]

/-- `str.strip` on a string of shape `a ++ m ++ b`, where `m` is nonempty
with non-whitespace endpoints, only erodes `a` and `b`. -/
theorem stripL_decomp (a m b : List Char) {h0 e : Char} (hh : m.head? = some h0)
    (hsp1 : isSp h0 = false) (hl : m.getLast? = some e) (hsp2 : isSp e = false) :
    ∃ a' b', stripL (a ++ m ++ b) = a' ++ m ++ b' ∧
      (∀ c ∈ a', c ∈ a) ∧ (∀ c ∈ b', c ∈ b) := by
  obtain ⟨mh, mr, hm⟩ : ∃ mh mr, m = mh :: mr := by
    match m with
    | c :: r => exact ⟨c, r, rfl⟩
  subst hm
  injection hh with hch
  have hsp1' : isSp mh = false := by
    rw [hch]
    exact hsp1
  rw [stripL]
  have step1 : (a ++ (mh :: mr) ++ b).dropWhile isSp
      = a.dropWhile isSp ++ (mh :: mr) ++ b := by
    rw [List.append_assoc, List.dropWhile_append]
    split
    · rename_i hempty
      simp only [List.isEmpty_iff] at hempty
      rw [hempty, List.nil_append, List.cons_append, List.dropWhile]
      simp [hsp1']
    · rw [List.append_assoc]
  rw [step1]
  set a' := a.dropWhile isSp with ha'
  have hrev : (a' ++ (mh :: mr) ++ b).reverse
      = b.reverse ++ (mh :: mr).reverse ++ a'.reverse := by
    simp [List.reverse_append, List.append_assoc]
  rw [hrev]
  obtain ⟨rh, rr, hrm⟩ : ∃ rh rr, (mh :: mr).reverse = rh :: rr := by
    rcases hq : (mh :: mr).reverse with _ | ⟨x, xr⟩
    · have hlen := congrArg List.length hq
      simp at hlen
    · exact ⟨x, xr, rfl⟩
  have hrh : isSp rh = false := by
    have h2 : (mh :: mr).reverse.head? = some e := by
      rw [List.head?_reverse]
      exact hl
    rw [hrm] at h2
    injection h2 with h3
    rw [h3]
    exact hsp2
  have step2 : (b.reverse ++ (mh :: mr).reverse ++ a'.reverse).dropWhile isSp
      = b.reverse.dropWhile isSp ++ (mh :: mr).reverse ++ a'.reverse := by
    rw [List.append_assoc, List.dropWhile_append]
    split
    · rename_i hempty
      simp only [List.isEmpty_iff] at hempty
      rw [hempty, List.nil_append, hrm, List.cons_append, List.dropWhile]
      simp [hrh]
    · rw [List.append_assoc]
  rw [step2]
  refine ⟨a', (b.reverse.dropWhile isSp).reverse, ?_, ?_, ?_⟩
  · simp [List.reverse_append, List.append_assoc]
  · intro c hc
    exact mem_dropWhile hc
  · intro c hc
    rw [List.mem_reverse] at hc
    have hc2 := mem_dropWhile hc
    rwa [List.mem_reverse] at hc2

end LlmUtils

namespace LlmUtils

theorem findIdx_cons_self (t : Char) (r : List Char) : findIdx t (t :: r) = some 0 := by
  simp [findIdx]

theorem findIdx_append_not {t : Char} {A : List Char} (h : ∀ c ∈ A, c ≠ t)
    (x : List Char) :
    findIdx t (A ++ x) = (findIdx t x).map (· + A.length) := by
  induction A with
  | nil => simp
  | cons c A' ih =>
    rw [List.cons_append, findIdx, if_neg (h c (by simp))]
    rw [ih (fun d hd2 => h d (List.mem_cons_of_mem c hd2))]
    cases findIdx t x with
    | none => rfl
    | some i =>
      simp only [Option.map_some', Option.some.injEq, List.length_cons]
      omega

theorem findIdx_spec {t : Char} : ∀ {l : List Char} {i : Nat},
    findIdx t l = some i → l[i]? = some t := by
  intro l
  induction l with
  | nil => intro i h; cases h
  | cons c r ih =>
    intro i h
    rw [findIdx] at h
    split at h
    · rename_i hc
      subst hc
      injection h with h2
      subst h2
      simp
    · cases hr : findIdx t r with
      | none =>
        rw [hr] at h
        cases h
      | some j =>
        rw [hr] at h
        simp only [Option.map_some', Option.some.injEq] at h
        subst h
        simpa using ih hr

theorem findIdx_lt {t : Char} {l : List Char} {i : Nat} (h : findIdx t l = some i) :
    i < l.length := by
  have h2 := findIdx_spec h
  exact (List.getElem?_eq_some.mp h2).1

theorem rfindIdx_spec {t : Char} {l : List Char} {e : Nat} (h : rfindIdx t l = some e) :
    l[e]? = some t ∧ e < l.length := by
  rw [rfindIdx] at h
  cases hr : findIdx t l.reverse with
  | none =>
    rw [hr] at h
    cases h
  | some i =>
    rw [hr] at h
    simp only [Option.map_some', Option.some.injEq] at h
    have hlt : i < l.length := by
      have := findIdx_lt hr
      simpa using this
    have hget := findIdx_spec hr
    rw [List.getElem?_reverse hlt] at hget
    have hlen : 0 < l.length := by omega
    subst h
    exact ⟨hget, by omega⟩

/-- The first-`{`/last-`}` slice of `A ++ o ++ B`, with `A`, `B`
brace-free and `o` brace-delimited, is exactly `o`. -/
theorem slice_decomp {A B o : List Char}
    (hA : ∀ c ∈ A, c ≠ lbrace ∧ c ≠ rbrace) (hB : ∀ c ∈ B, c ≠ lbrace ∧ c ≠ rbrace)
    (hoh : o.head? = some lbrace) (hol : o.getLast? = some rbrace) :
    findIdx lbrace (A ++ o ++ B) = some A.length ∧
    rfindIdx rbrace (A ++ o ++ B) = some (A.length + o.length - 1) ∧
    ((A ++ o ++ B).take (A.length + o.length - 1 + 1)).drop A.length = o := by
  obtain ⟨oh, orest, ho⟩ : ∃ x r, o = x :: r := by
    match o, hoh with
    | c :: r, _ => exact ⟨c, r, rfl⟩
  have hohl : oh = lbrace := by
    rw [ho] at hoh
    simpa using hoh
  have holen : 1 ≤ o.length := by
    rw [ho]
    simp
  have hfind : findIdx lbrace (A ++ o ++ B) = some A.length := by
    rw [List.append_assoc, findIdx_append_not (fun c hc => (hA c hc).1)]
    rw [ho, hohl, List.cons_append, findIdx_cons_self]
    simp
  have hrevo : ∃ orr, o.reverse = rbrace :: orr := by
    rcases hq : o.reverse with _ | ⟨x, xr⟩
    · have hlen := congrArg List.length hq
      rw [ho] at hlen
      simp at hlen
    · have hx : o.reverse.head? = some rbrace := by
        rw [List.head?_reverse]
        exact hol
      rw [hq] at hx
      injection hx with hx2
      exact ⟨xr, by rw [hx2]⟩
  obtain ⟨orr, horr⟩ := hrevo
  have hrfind : rfindIdx rbrace (A ++ o ++ B) = some (A.length + o.length - 1) := by
    rw [rfindIdx]
    have hrev : (A ++ o ++ B).reverse = B.reverse ++ (o.reverse ++ A.reverse) := by
      simp [List.reverse_append, List.append_assoc]
    rw [hrev]
    rw [findIdx_append_not (fun c hc => by
      rw [List.mem_reverse] at hc
      exact (hB c hc).2)]
    rw [horr, List.cons_append, findIdx_cons_self]
    simp only [Option.map_some', Option.some.injEq, List.length_append,
      List.length_reverse]
    omega
  refine ⟨hfind, hrfind, ?_⟩
  have harith : A.length + o.length - 1 + 1 = A.length + o.length := by omega
  rw [harith]
  have htake : (A ++ o ++ B).take (A.length + o.length) = A ++ o := by
    rw [show A.length + o.length = (A ++ o).length by simp]
    exact List.take_left (A ++ o) B
  rw [htake]
  exact List.drop_left A o

/-- Structure of `clean_json_response`'s result: either the literal `"{}"`
or the comma-repaired first-`{`/last-`}` slice, which is brace-delimited
and triple-backtick-free. -/
theorem cleanJsonL_cases (resp : List Char) :
    cleanJsonL resp = bracePair ∨
    ∃ mid, cleanJsonL resp = repairBracket (repairBrace mid) ∧
      mid.head? = some lbrace ∧ mid.getLast? = some rbrace ∧ hasTriple mid = false := by
  rw [cleanJsonL]
  by_cases hresp : resp = []
  · rw [if_pos hresp]
    exact Or.inl rfl
  · rw [if_neg hresp]
    dsimp only
    set C := (if hasTriple (stripL resp) = true then
      subBareFence (subJsonFence (stripL resp)) else stripL resp) with hC
    have hnt : hasTriple C = false := by
      rw [hC]
      split_ifs with hg
      · exact hasTriple_subRun_bare _
      · simpa using hg
    rcases hf : findIdx lbrace C with _ | s
    · left
      cases hrf : rfindIdx rbrace C with
      | none => rfl
      | some e => rfl
    · rcases hrf : rfindIdx rbrace C with _ | e
      · exact Or.inl rfl
      · dsimp only
        by_cases hse : s < e + 1
        · rw [if_pos hse]
          right
          obtain ⟨hCe, helt⟩ := rfindIdx_spec hrf
          have hCs := findIdx_spec hf
          refine ⟨(C.take (e + 1)).drop s, rfl, ?_, ?_, ?_⟩
          · rw [List.head?_eq_getElem?, List.getElem?_drop]
            rw [List.getElem?_take]
            simp only [Nat.add_zero]
            rw [if_pos (by omega)]
            exact hCs
          · have hlen : (C.take (e + 1)).length = e + 1 := by
              rw [List.length_take]
              omega
            rw [List.getLast?_eq_getElem?, List.getElem?_drop, List.length_drop, hlen]
            have harith : s + (e + 1 - s - 1) = e := by omega
            rw [harith, List.getElem?_take, if_pos (by omega)]
            exact hCe
          · exact hasTriple_drop (hasTriple_take hnt (e + 1)) s
        · rw [if_neg hse]
          exact Or.inl rfl

end LlmUtils

namespace LlmUtils

theorem repairBrace_eq_subRun (l : List Char) :
    repairBrace l = subRun (matchCommaClose rbrace) [rbrace] l := rfl

theorem repairBracket_eq_subRun (l : List Char) :
    repairBracket l = subRun (matchCommaClose rbracket) [rbracket] l := rfl

theorem parseVal_lbrace {f : Nat} {l r rest : List Char} {v : JValue}
    (hl : l = lbrace :: r) (h : parseVal (f + 1) l = some (v, rest)) :
    ∃ ms, v = .jobj ms := by
  rw [parseVal, hl] at h
  have hdw : dropWs (lbrace :: r) = lbrace :: r := by
    rw [dropWs, List.dropWhile, show isSp lbrace = false from by decide]
  rw [hdw] at h
  dsimp only at h
  rw [if_pos rfl] at h
  rcases hdr : dropWs r with _ | ⟨d, r2⟩
  · rw [hdr] at h
    cases h
  · rw [hdr] at h
    dsimp only at h
    by_cases hdb : d = rbrace
    · rw [if_pos hdb] at h
      injection h with h2
      injection h2 with h3 _
      exact ⟨[], h3.symm⟩
    · rw [if_neg hdb] at h
      cases hpm : parseMembers f (d :: r2) with
      | none =>
        rw [hpm] at h
        cases h
      | some pr =>
        obtain ⟨ms, rest'⟩ := pr
        rw [hpm] at h
        simp only [Option.map_some'] at h
        injection h with h2
        injection h2 with h3 _
        exact ⟨ms, h3.symm⟩

theorem jsonParse_head_lbrace {s : String} {v : JValue}
    (hh : s.data.head? = some lbrace) (h : jsonParse s = some v) :
    ∃ ms, v = .jobj ms := by
  rw [jsonParse, jsonParseE] at h
  obtain ⟨c, r, hd⟩ : ∃ c r, s.data = c :: r := by
    match hq : s.data, hh with
    | c :: r, _ => exact ⟨c, r, rfl⟩
  have hc : c = lbrace := by
    rw [hd] at hh
    simpa using hh
  cases hpv : parseVal (s.data.length + 1) s.data with
  | none =>
    rw [hpv] at h
    simp [Except.toOption] at h
  | some pr =>
    obtain ⟨v', rest⟩ := pr
    rw [hpv] at h
    dsimp only at h
    split at h
    · simp only [Except.toOption, Option.some.injEq] at h
      subst h
      exact parseVal_lbrace (l := s.data) (by rw [hd, hc]) hpv
    · simp [Except.toOption] at h

end LlmUtils

open LlmUtils in
/-- Claim C10: for every input, `clean_json_response`'s result starts with
`{` and ends with `}` (the `"{}"` literal, or the comma-repaired slice
whose delimiting braces the repairs preserve); consequently, whenever the
strict parse in `safe_json_parse` succeeds on it, the decoded value is a
JSON object, never an array or scalar. -/
theorem c10_brace_delimited (s : String) :
    (cleanJson s).data.head? = some lbrace ∧
    (cleanJson s).data.getLast? = some rbrace ∧
    ∀ v, jsonParse (cleanJson s) = some v → ∃ ms, v = .jobj ms := by
  have hends : (cleanJsonL s.data).head? = some lbrace ∧
      (cleanJsonL s.data).getLast? = some rbrace := by
    rcases cleanJsonL_cases s.data with h | ⟨mid, heq, hh, hl, _⟩
    · rw [h]
      exact ⟨rfl, rfl⟩
    · rw [heq]
      have h1 : (repairBrace mid).head? = some lbrace := by
        rw [repairBrace_eq_subRun]
        exact subRun_repair_head hh (by decide)
      have h2 : (repairBrace mid).getLast? = some rbrace := by
        rw [repairBrace_eq_subRun]
        exact subRun_repair_getLast rbrace (Or.inl rfl) mid hl
      constructor
      · rw [repairBracket_eq_subRun]
        exact subRun_repair_head h1 (by decide)
      · rw [repairBracket_eq_subRun]
        exact subRun_repair_getLast rbracket (Or.inr rfl) _ h2
  refine ⟨hends.1, hends.2, ?_⟩
  intro v hv
  exact jsonParse_head_lbrace hends.1 hv

open LlmUtils in
/-- Claim C10 (witness): the theorem applied to an input with surrounding
prose, whose cleaned text parses to an object. -/
theorem c10_witness :
    ∃ ms, JValue.jobj [("a", JValue.jnum "1")] = JValue.jobj ms :=
  (c10_brace_delimited "x\x7b\"a\": 1\x7dy").2.2 (JValue.jobj [("a", JValue.jnum "1")]) (by rfl)

namespace LlmUtils

/-- `clean_json_response` output is brace-delimited and triple-free. -/
theorem cleanJsonL_shape (l : List Char) :
    (cleanJsonL l).head? = some lbrace ∧ (cleanJsonL l).getLast? = some rbrace ∧
    hasTriple (cleanJsonL l) = false := by
  rcases cleanJsonL_cases l with h | ⟨mid, heq, hh, hl, hnt⟩
  · rw [h]
    exact ⟨rfl, rfl, by decide⟩
  · rw [heq]
    have h1 : (repairBrace mid).head? = some lbrace := by
      rw [repairBrace_eq_subRun]
      exact subRun_repair_head hh (by decide)
    have h2 : (repairBrace mid).getLast? = some rbrace := by
      rw [repairBrace_eq_subRun]
      exact subRun_repair_getLast rbrace (Or.inl rfl) mid hl
    have h3 : hasTriple (repairBrace mid) = false := by
      rw [repairBrace_eq_subRun]
      exact hasTriple_subRun_repair rbrace rbrace_ne_tick mid hnt
    refine ⟨?_, ?_, ?_⟩
    · rw [repairBracket_eq_subRun]
      exact subRun_repair_head h1 (by decide)
    · rw [repairBracket_eq_subRun]
      exact subRun_repair_getLast rbracket (Or.inr rfl) _ h2
    · rw [repairBracket_eq_subRun]
      exact hasTriple_subRun_repair rbracket rbracket_ne_tick _ h3

/-- A second `clean_json_response` pass reduces to one more round of the
two comma repairs. -/
theorem cleanJsonL_twice (l : List Char) :
    cleanJsonL (cleanJsonL l) = repairBracket (repairBrace (cleanJsonL l)) := by
  obtain ⟨hh, hl, hnt⟩ := cleanJsonL_shape l
  set cl := cleanJsonL l with hcl
  have hne : cl ≠ [] := by
    intro heq
    rw [heq] at hh
    cases hh
  obtain ⟨rest, hrest⟩ : ∃ rest, cl = lbrace :: rest := by
    match cl, hh with
    | c :: r, hh =>
      refine ⟨r, ?_⟩
      injection hh with h2
      rw [h2]
  have hlen : 1 ≤ cl.length := by
    rw [hrest]
    simp
  rw [cleanJsonL, if_neg hne]
  dsimp only
  have hstrip : stripL cl = cl :=
    stripL_eq_self hh (by decide) hl (by decide)
  rw [hstrip]
  rw [if_neg (by simp [hnt])]
  have hfind : findIdx lbrace cl = some 0 := by
    rw [hrest]
    exact findIdx_cons_self _ _
  have hrev : ∃ rr, cl.reverse = rbrace :: rr := by
    rcases hq : cl.reverse with _ | ⟨x, xr⟩
    · have hlen2 := congrArg List.length hq
      rw [hrest] at hlen2
      simp at hlen2
    · have hx : cl.reverse.head? = some rbrace := by
        rw [List.head?_reverse]
        exact hl
      rw [hq] at hx
      injection hx with hx2
      exact ⟨xr, by rw [hx2]⟩
  obtain ⟨rr, hrr⟩ := hrev
  have hrfind : rfindIdx rbrace cl = some (cl.length - 1) := by
    rw [rfindIdx, hrr, findIdx_cons_self]
    simp
  rw [hfind, hrfind]
  dsimp only
  rw [if_pos (by omega)]
  have harith : cl.length - 1 + 1 = cl.length := by omega
  rw [harith, List.take_length, List.drop_zero]

end LlmUtils

open LlmUtils in
/-- Claim C6 (counterexample): `clean_json_response` is not idempotent —
on `"{,,}"` the single repair pass turns `,,}` into `,}`, and a second
pass repairs further: `clean("{,,}") = "{,}"` but `clean("{,}") = "{}"`. -/
theorem c6_counterexample :
    cleanJson (cleanJson "{,,}") ≠ cleanJson "{,,}" := by
  decide

open LlmUtils in
/-- Claim C6 (amended): a second application of `clean_json_response`
performs exactly one more round of the two trailing-comma repairs on the
first result (the strip, fence and slice stages are the identity there);
hence the function is idempotent exactly on inputs whose cleaned output is
already a fixpoint of the comma repairs. -/
theorem c6_idempotent_amended (s : String) :
    cleanJson (cleanJson s) = String.mk (repairBracket (repairBrace (cleanJson s).data)) ∧
    (repairBracket (repairBrace (cleanJson s).data) = (cleanJson s).data →
      cleanJson (cleanJson s) = cleanJson s) := by
  have h1 : cleanJson (cleanJson s)
      = String.mk (repairBracket (repairBrace (cleanJson s).data)) := by
    show String.mk (cleanJsonL (cleanJsonL s.data)) = _
    rw [cleanJsonL_twice]
    rfl
  refine ⟨h1, ?_⟩
  intro hfix
  rw [h1, hfix]

open LlmUtils in
/-- Claim C6 (witness): the amended theorem applied to `"{\"a\": 1}"`,
whose cleaned output is repair-stable, giving genuine idempotence there. -/
theorem c6_witness :
    cleanJson (cleanJson "\x7b\"a\": 1\x7d") = cleanJson "\x7b\"a\": 1\x7d" :=
  (c6_idempotent_amended "\x7b\"a\": 1\x7d").2 (by decide)

namespace LlmUtils

theorem subJsonFence_eq (l : List Char) : subJsonFence l = subRun matchJsonFence [] l := rfl

theorem subBareFence_eq (l : List Char) : subBareFence l = subRun matchBareFence [] l := rfl

theorem hasTriple_tripleHead (z : List Char) :
    hasTriple (tick :: tick :: tick :: z) = true := by
  rw [hasTriple]
  simp

theorem dropWs_of_head {l : List Char} {x : Char} (hh : l.head? = some x)
    (hx : isSp x = false) : dropWs l = l := by
  match l, hh with
  | c :: r, hh2 =>
    injection hh2 with h2
    subst h2
    rw [dropWs, List.dropWhile]
    simp [hx]

theorem dropWs_cons_sp {c : Char} (hc : isSp c = true) (l : List Char) :
    dropWs (c :: l) = dropWs l := by
  rw [dropWs, dropWs, List.dropWhile, hc]

/-- If the cleaned-and-defenced text decomposes as brace-free noise around a
brace-delimited core, `clean_json_response` returns the comma-repaired core. -/
theorem cleanJsonL_slice_result {resp A B o : List Char} (hresp : resp ≠ [])
    (hA : ∀ c ∈ A, c ≠ lbrace ∧ c ≠ rbrace)
    (hB : ∀ c ∈ B, c ≠ lbrace ∧ c ≠ rbrace)
    (hoh : o.head? = some lbrace) (hol : o.getLast? = some rbrace)
    (hcl : (if hasTriple (stripL resp) = true then
        subBareFence (subJsonFence (stripL resp)) else stripL resp) = A ++ o ++ B) :
    cleanJsonL resp = repairBracket (repairBrace o) := by
  have holen : 1 ≤ o.length := by
    cases o with
    | nil => cases hoh
    | cons c r => simp
  obtain ⟨hfi, hrfi, hslice⟩ := slice_decomp hA hB hoh hol
  rw [cleanJsonL, if_neg hresp]
  dsimp only
  rw [hcl, hfi, hrfi]
  dsimp only
  rw [if_pos (by omega), hslice]

/-- Unfenced extraction: brace- and backtick-free prose around a
brace-delimited, fence-free object is stripped away by the slicing stage. -/
theorem cleanJsonL_plain (p1 p2 o : List Char)
    (hp1 : ∀ c ∈ p1, c ≠ lbrace ∧ c ≠ rbrace ∧ c ≠ tick)
    (hp2 : ∀ c ∈ p2, c ≠ lbrace ∧ c ≠ rbrace ∧ c ≠ tick)
    (hoh : o.head? = some lbrace) (hol : o.getLast? = some rbrace)
    (hnt : hasTriple o = false) :
    cleanJsonL (p1 ++ o ++ p2) = repairBracket (repairBrace o) := by
  have hone : o ≠ [] := by
    intro h
    rw [h] at hoh
    cases hoh
  have hwne : p1 ++ o ++ p2 ≠ [] := by
    intro h
    have h1 := (List.append_eq_nil.mp h).1
    exact hone (List.append_eq_nil.mp h1).2
  obtain ⟨p1', p2', hstrip, hm1, hm2⟩ :=
    stripL_decomp p1 o p2 hoh (by decide) hol (by decide)
  have hguard : hasTriple (stripL (p1 ++ o ++ p2)) = false := by
    rw [hstrip, List.append_assoc,
      hasTriple_append_no_tick_left (fun c hc => (hp1 c (hm1 c hc)).2.2)]
    exact hasTriple_append_false hnt (fun c hc => (hp2 c (hm2 c hc)).2.2)
  have hcl : (if hasTriple (stripL (p1 ++ o ++ p2)) = true then
      subBareFence (subJsonFence (stripL (p1 ++ o ++ p2)))
      else stripL (p1 ++ o ++ p2)) = p1' ++ o ++ p2' := by
    rw [if_neg (by rw [hguard]; exact Bool.false_ne_true)]
    exact hstrip
  exact cleanJsonL_slice_result hwne
    (fun c hc => ⟨(hp1 c (hm1 c hc)).1, (hp1 c (hm1 c hc)).2.1⟩)
    (fun c hc => ⟨(hp2 c (hm2 c hc)).1, (hp2 c (hm2 c hc)).2.1⟩) hoh hol hcl

end LlmUtils

namespace LlmUtils

/-- Fenced extraction: the `` ```json `` opening fence and the closing
`` ``` `` fence around a brace-delimited object are removed by the two
fence substitutions, and the slicing stage then isolates the object. -/
theorem cleanJsonL_fenced (p1 p2 o : List Char)
    (hp1 : ∀ c ∈ p1, c ≠ lbrace ∧ c ≠ rbrace ∧ c ≠ tick)
    (hp2 : ∀ c ∈ p2, c ≠ lbrace ∧ c ≠ rbrace ∧ c ≠ tick)
    (hoh : o.head? = some lbrace) (hol : o.getLast? = some rbrace)
    (hnt : hasTriple o = false) :
    cleanJsonL (p1 ++ ((tick :: tick :: tick :: 'j' :: 's' :: 'o' :: 'n' :: '\n' :: [])
        ++ o ++ ('\n' :: tick :: tick :: tick :: [])) ++ p2)
      = repairBracket (repairBrace o) := by
  obtain ⟨orest, ho⟩ : ∃ r, o = lbrace :: r := by
    match o, hoh with
    | c :: r, hoh2 =>
      injection hoh2 with h2
      exact ⟨r, by rw [h2]⟩
  have hmh : ((tick :: tick :: tick :: 'j' :: 's' :: 'o' :: 'n' :: '\n' :: [])
      ++ o ++ ('\n' :: tick :: tick :: tick :: [])).head? = some tick := rfl
  have hml : ((tick :: tick :: tick :: 'j' :: 's' :: 'o' :: 'n' :: '\n' :: [])
      ++ o ++ ('\n' :: tick :: tick :: tick :: [])).getLast? = some tick := by
    rw [List.getLast?_append]
    rw [show (('\n' :: tick :: tick :: tick :: []) : List Char).getLast? = some tick from
      by decide]
    rfl
  have hwne : p1 ++ ((tick :: tick :: tick :: 'j' :: 's' :: 'o' :: 'n' :: '\n' :: [])
      ++ o ++ ('\n' :: tick :: tick :: tick :: [])) ++ p2 ≠ [] := by
    intro h
    have h1 := (List.append_eq_nil.mp h).1
    have h2 := (List.append_eq_nil.mp h1).2
    have h3 := (List.append_eq_nil.mp h2).1
    exact absurd (List.append_eq_nil.mp h3).1 (by simp)
  obtain ⟨p1', p2', hstrip, hm1, hm2⟩ :=
    stripL_decomp p1 ((tick :: tick :: tick :: 'j' :: 's' :: 'o' :: 'n' :: '\n' :: [])
      ++ o ++ ('\n' :: tick :: tick :: tick :: [])) p2 hmh (by decide) hml (by decide)
  have hguard : hasTriple (stripL (p1
      ++ ((tick :: tick :: tick :: 'j' :: 's' :: 'o' :: 'n' :: '\n' :: [])
        ++ o ++ ('\n' :: tick :: tick :: tick :: [])) ++ p2)) = true := by
    rw [hstrip, List.append_assoc]
    apply hasTriple_append_of_true
    exact hasTriple_tripleHead _
  have hXh : (o ++ ('\n' :: tick :: tick :: tick :: p2')).head? = some lbrace := by
    rw [ho]
    rfl
  have hmatch : matchJsonFence (tick :: tick :: tick :: 'j' :: 's' :: 'o' :: 'n' :: '\n'
      :: (o ++ ('\n' :: tick :: tick :: tick :: p2')))
      = some (o ++ ('\n' :: tick :: tick :: tick :: p2')) := by
    rw [matchJsonFence, if_pos (by decide)]
    rw [show consumeOptN ('n' :: '\n' :: (o ++ ('\n' :: tick :: tick :: tick :: p2')))
        = '\n' :: (o ++ ('\n' :: tick :: tick :: tick :: p2')) from by
      rw [consumeOptN]; simp]
    rw [dropWs_cons_sp (c := '\n') (by decide), dropWs_of_head hXh (by decide)]
  have hzA : (('\n' :: tick :: tick :: tick :: p2') : List Char).head? ≠ some tick := by
    intro h
    injection h with h2
    exact absurd h2 (by decide)
  have hsj : subJsonFence (stripL (p1
      ++ ((tick :: tick :: tick :: 'j' :: 's' :: 'o' :: 'n' :: '\n' :: [])
        ++ o ++ ('\n' :: tick :: tick :: tick :: [])) ++ p2))
      = p1' ++ (o ++ subRun matchJsonFence [] ('\n' :: tick :: tick :: tick :: p2')) := by
    rw [subJsonFence_eq, hstrip, List.append_assoc]
    rw [subRun_append_none _ (fun c hc rest =>
      matchJsonFence_none_of_head rest (hp1 c (hm1 c hc)).2.2)]
    congr 1
    rw [show ((tick :: tick :: tick :: 'j' :: 's' :: 'o' :: 'n' :: '\n' :: [])
        ++ o ++ ('\n' :: tick :: tick :: tick :: [])) ++ p2'
        = tick :: tick :: tick :: 'j' :: 's' :: 'o' :: 'n' :: '\n'
          :: (o ++ ('\n' :: tick :: tick :: tick :: p2')) from by
      simp [List.append_assoc]]
    rw [subRun_cons_some (fun l v h => @matchJsonFence_shrink l v h) hmatch, List.nil_append]
    exact subRun_append_noTriple (fun l v h => @matchJsonFence_fire l v h) o
      ('\n' :: tick :: tick :: tick :: p2') hnt hzA
  have hq1h : (subRun matchJsonFence [] ('\n' :: tick :: tick :: tick :: p2')).head?
      = some '\n' := by
    rw [subRun_cons_none (matchJsonFence_none_of_head (c := '\n') _ (by decide))]
    rfl
  have hq1brace : ∀ c ∈ subRun matchJsonFence [] ('\n' :: tick :: tick :: tick :: p2'),
      c ≠ lbrace ∧ c ≠ rbrace := by
    intro c hc
    have hc2 : c ∈ ('\n' :: tick :: tick :: tick :: p2' : List Char) :=
      (subF_sublist (fun l v h => @matchJsonFence_split l v h) _ _).subset hc
    simp only [List.mem_cons] at hc2
    rcases hc2 with h | h | h | h | h
    · subst h; exact ⟨by decide, by decide⟩
    · subst h; exact ⟨by decide, by decide⟩
    · subst h; exact ⟨by decide, by decide⟩
    · subst h; exact ⟨by decide, by decide⟩
    · exact ⟨(hp2 c (hm2 c h)).1, (hp2 c (hm2 c h)).2.1⟩
  have hsb : subBareFence (p1'
      ++ (o ++ subRun matchJsonFence [] ('\n' :: tick :: tick :: tick :: p2')))
      = p1' ++ (o ++ subRun matchBareFence []
          (subRun matchJsonFence [] ('\n' :: tick :: tick :: tick :: p2'))) := by
    rw [subBareFence_eq]
    rw [subRun_append_none _ (fun c hc rest =>
      matchBareFence_none_of_head rest (hp1 c (hm1 c hc)).2.2)]
    congr 1
    exact subRun_append_noTriple (fun l v h => @matchBareFence_fire l v h) o _ hnt (by
      rw [hq1h]
      intro h
      injection h with h2
      exact absurd h2 (by decide))
  have hq2brace : ∀ c ∈ subRun matchBareFence []
      (subRun matchJsonFence [] ('\n' :: tick :: tick :: tick :: p2')),
      c ≠ lbrace ∧ c ≠ rbrace :=
    fun c hc => hq1brace c ((subF_sublist (fun l v h => @matchBareFence_split l v h) _ _).subset hc)
  have hcl : (if hasTriple (stripL (p1
      ++ ((tick :: tick :: tick :: 'j' :: 's' :: 'o' :: 'n' :: '\n' :: [])
        ++ o ++ ('\n' :: tick :: tick :: tick :: [])) ++ p2)) = true then
      subBareFence (subJsonFence (stripL (p1
        ++ ((tick :: tick :: tick :: 'j' :: 's' :: 'o' :: 'n' :: '\n' :: [])
          ++ o ++ ('\n' :: tick :: tick :: tick :: [])) ++ p2)))
      else stripL (p1
        ++ ((tick :: tick :: tick :: 'j' :: 's' :: 'o' :: 'n' :: '\n' :: [])
          ++ o ++ ('\n' :: tick :: tick :: tick :: [])) ++ p2))
      = p1' ++ o ++ subRun matchBareFence []
          (subRun matchJsonFence [] ('\n' :: tick :: tick :: tick :: p2')) := by
    rw [if_pos hguard, hsj, hsb, ← List.append_assoc]
  exact cleanJsonL_slice_result hwne
    (fun c hc => ⟨(hp1 c (hm1 c hc)).1, (hp1 c (hm1 c hc)).2.1⟩)
    hq2brace hoh hol hcl

end LlmUtils

open LlmUtils in
/-- Claim C7 (counterexample): exact extraction fails even on an input that
is nothing but a single well-formed JSON object (no prose, no fences): in
`clean_json_response` the trailing-comma repair `re.sub(r',\s*}', '}')`
also fires inside string literals, so the object text is altered. -/
theorem c7_counterexample :
    (jsonParse "\x7b\"a\": \", \x7d\"\x7d").isSome = true ∧
    cleanJson "\x7b\"a\": \", \x7d\"\x7d" ≠ "\x7b\"a\": \", \x7d\"\x7d" := by
  decide

open LlmUtils in
/-- Claim C7 (amended): for an input made of a single brace-delimited,
triple-backtick-free object that is a fixpoint of the two trailing-comma
repairs, surrounded by prose free of braces and backticks, either bare or
wrapped in a `` ```json ``/`` ``` `` code fence, `clean_json_response`
returns exactly the object's text. -/
theorem c7_amended (p1 p2 o f1 f2 : List Char)
    (hp1 : ∀ c ∈ p1, c ≠ lbrace ∧ c ≠ rbrace ∧ c ≠ tick)
    (hp2 : ∀ c ∈ p2, c ≠ lbrace ∧ c ≠ rbrace ∧ c ≠ tick)
    (hoh : o.head? = some lbrace) (hol : o.getLast? = some rbrace)
    (hnt : hasTriple o = false)
    (hfb : repairBrace o = o) (hfk : repairBracket o = o)
    (hf : (f1 = [] ∧ f2 = []) ∨ (f1 = "```json\n".data ∧ f2 = "\n```".data)) :
    cleanJsonL (p1 ++ f1 ++ o ++ f2 ++ p2) = o := by
  rcases hf with ⟨hf1, hf2⟩ | ⟨hf1, hf2⟩
  · subst hf1
    subst hf2
    rw [show p1 ++ [] ++ o ++ [] ++ p2 = p1 ++ o ++ p2 from by simp]
    rw [cleanJsonL_plain p1 p2 o hp1 hp2 hoh hol hnt, hfb, hfk]
  · subst hf1
    subst hf2
    rw [show p1 ++ "```json\n".data ++ o ++ "\n```".data ++ p2
        = p1 ++ ((tick :: tick :: tick :: 'j' :: 's' :: 'o' :: 'n' :: '\n' :: [])
          ++ o ++ ('\n' :: tick :: tick :: tick :: [])) ++ p2 from by
      rw [show ("```json\n".data : List Char)
          = tick :: tick :: tick :: 'j' :: 's' :: 'o' :: 'n' :: '\n' :: [] from by decide]
      rw [show ("\n```".data : List Char) = '\n' :: tick :: tick :: tick :: [] from by decide]
      simp [List.append_assoc]]
    rw [cleanJsonL_fenced p1 p2 o hp1 hp2 hoh hol hnt, hfb, hfk]

open LlmUtils in
/-- Claim C7 (witness): the amended extraction theorem applied to a concrete
fenced response with prose on both sides of the code block. -/
theorem c7_witness :
    cleanJsonL ("Sure, here is the JSON you asked for:\n".data ++ "```json\n".data
        ++ "\x7b\"score\": 85, \"verdict\": \"fit\"\x7d".data ++ "\n```".data
        ++ "\nLet me know if you need anything else.".data)
      = "\x7b\"score\": 85, \"verdict\": \"fit\"\x7d".data :=
  c7_amended _ _ _ _ _ (by decide) (by decide) (by decide) (by decide) (by decide)
    (by decide) (by decide) (Or.inr ⟨rfl, rfl⟩)
